import Mathlib

/-! # bspy: the log viewer core of `src/main.cpp`

A shallow embedding of the non-visual part of `src/main.cpp`: the severity
names, the CSV writer and reader, the `WM_COPYDATA` message decoder, the
filter of the log table and the rows drawn from it, followed by theorems
about them.

Conventions of the embedding.

* A character buffer is a `List Char`; one `Char` stands for one `char`.
  A buffer read as a C string (`const char*`, `std::string::c_str()`, the
  array filled by `fgets`) is cut at its first NUL by `c_str`.
* `u64` values are natural numbers below `2 ^ 64`.
* A file is the stream of characters the C runtime delivers or receives in
  text mode; a file that cannot be opened is `none`.
* `strtok` keeps its position in hidden static storage; here the position is
  returned next to the token and passed to the following call.
* A null pointer handed to `strcmp` is undefined behaviour; a function that
  can reach it returns an `Option`, and `none` is that outcome.
* The flags `auto_scroll` and `scroll_refresh` only steer the scroll bar and
  are left out.
-/

namespace Bspy

/-! ## Record model -/

/-- The enumeration `log_severity_e`. -/
inductive log_severity_e where
  | INFO
  | WARN
  | FAIL
  | SUCC
  | CRIT
  | DBUG
  | TRCE
  deriving DecidableEq, Repr

open log_severity_e

/-- The structure `log_entry_t`. -/
structure log_entry_t where
  timestamp : Nat
  severity : log_severity_e
  origin : List Char
  content : List Char
  deriving DecidableEq, Repr

/-! ## C library functions used by the program -/

/-- The characters of a buffer before its first NUL: the buffer as a C string. -/
def c_str (buf : List Char) : List Char :=
  buf.takeWhile (fun c => c != '\x00')

/-- The function `strcmp`: zero exactly when the two strings are equal. -/
def strcmp : List Char → List Char → Int
  | [], [] => 0
  | [], _ :: _ => -1
  | _ :: _, [] => 1
  | a :: as, b :: bs =>
    if a = b then strcmp as bs else if a.toNat < b.toNat then -1 else 1

/-- The function `_stricmp`: `strcmp` after ASCII lower-casing of both sides. -/
def _stricmp : List Char → List Char → Int
  | [], [] => 0
  | [], _ :: _ => -1
  | _ :: _, [] => 1
  | a :: as, b :: bs =>
    if a.toLower = b.toLower then _stricmp as bs
    else if a.toLower.toNat < b.toLower.toNat then -1 else 1

/-- The function `strstr` as a test: whether `needle` occurs in `hay`
(the C function returns a non-null pointer exactly then). -/
def strstr : List Char → List Char → Bool
  | [], needle => needle.isEmpty
  | h :: hs, needle => needle.isPrefixOf (h :: hs) || strstr hs needle

/-- The function `strtok(str, delim)`: skips leading delimiters; at the end of the
string there is no token; otherwise the token runs to the next delimiter
(which is overwritten and stepped over) or to the end of the string. The
second component is the saved position for the next call with `NULL`. -/
def strtok (str : List Char) (delim : List Char) : Option (List Char) × List Char :=
  match str.dropWhile (fun c => delim.elem c) with
  | [] => (none, [])
  | c :: cs =>
    (some ((c :: cs).takeWhile (fun x => !delim.elem x)),
     ((c :: cs).dropWhile (fun x => !delim.elem x)).drop 1)

/-- The function `isspace` in the C locale. -/
def isspace (c : Char) : Bool :=
  c = ' ' || (9 ≤ c.toNat && c.toNat ≤ 13)

/-- Value of a run of decimal digits, most significant first. -/
def digits_value (ds : List Char) : Nat :=
  ds.foldl (fun acc d => acc * 10 + (d.toNat - 48)) 0

/-- The function `_strtoui64(str, NULL, 10)`: leading white space, an optional sign, then
the longest run of digits; no digits give 0, a value that does not fit gives
`_UI64_MAX`, a minus sign negates modulo `2 ^ 64`. -/
def _strtoui64 (str : List Char) : Nat :=
  let s := str.dropWhile isspace
  let neg := s.head? = some '-'
  let s := if s.head? = some '-' ∨ s.head? = some '+' then s.drop 1 else s
  let v := digits_value (s.takeWhile Char.isDigit)
  if 2 ^ 64 ≤ v then 2 ^ 64 - 1
  else if neg then (2 ^ 64 - v) % 2 ^ 64
  else v

/-- Digits of `n`, most significant first, at most `fuel` of them. -/
def dec_digits : Nat → Nat → List Char
  | 0, _ => []
  | fuel + 1, n =>
    (if n / 10 = 0 then [] else dec_digits fuel (n / 10)) ++ [Char.ofNat (48 + n % 10)]

/-- The conversion `%llu` of `printf`: the decimal numeral of a `u64`
(twenty digits at most). -/
def fmt_llu (n : Nat) : List Char :=
  dec_digits 20 (n % 2 ^ 64)

/-- One call `fgets(line, n, f)` on a stream that is not at its end: reads
at most `k = n - 1` characters and stops after a newline; returns the
characters read and the rest of the stream. -/
def fgets_read : Nat → List Char → List Char × List Char
  | 0, f => ([], f)
  | _ + 1, [] => ([], [])
  | k + 1, c :: f =>
    if c = '\n' then ([c], f)
    else ((c :: (fgets_read k f).1), (fgets_read k f).2)

/-- The call `fgets(line, n, f)`: `none` (a null pointer) at the end of the stream. -/
def fgets (n : Nat) (f : List Char) : Option (List Char × List Char) :=
  match f with
  | [] => none
  | _ :: _ => some (fgets_read (n - 1) f)

/-! ## Severity names -/

/-- The function `severity_to_string`. The `default:` branch (`"UNKN"`) is not reachable
from a value of the enumeration. -/
def severity_to_string : log_severity_e → List Char
  | INFO => "INFO".toList
  | WARN => "WARN".toList
  | FAIL => "FAIL".toList
  | SUCC => "SUCC".toList
  | CRIT => "CRIT".toList
  | DBUG => "DBUG".toList
  | TRCE => "TRCE".toList

/-- The function `parse_severity`. -/
def parse_severity (str : List Char) : log_severity_e :=
  if _stricmp str "INFO".toList = 0 then INFO
  else if _stricmp str "WARN".toList = 0 then WARN
  else if _stricmp str "FAIL".toList = 0 then FAIL
  else if _stricmp str "SUCC".toList = 0 then SUCC
  else if _stricmp str "CRIT".toList = 0 then CRIT
  else if _stricmp str "DBUG".toList = 0 then DBUG
  else if _stricmp str "TRCE".toList = 0 then TRCE
  else INFO

/-! ## Decoding one entry -/

/-- The step "remove wrapping quotes if any": with `len >= 2`, a leading and a
trailing double quote, the last character is overwritten by NUL and the
pointer moves one character forward. -/
def strip_quotes (content : List Char) : List Char :=
  if 2 ≤ content.length ∧ content.head? = some '"' ∧ content.getLast? = some '"' then
    (content.drop 1).dropLast
  else content

/-- The token sequence that `load_logs_from_csv` (data lines) and the
`WM_COPYDATA` branch of `wnd_proc` both run on their buffer: three tokens
delimited by `","`, a fourth delimited by `"\n"`; a missing token abandons
the entry (`continue` there, `return 0` here). -/
def tokenize_entry (buf : List Char) : Option log_entry_t :=
  match strtok buf [','] with
  | (none, _) => none
  | (some tok1, s1) =>
    match strtok s1 [','] with
    | (none, _) => none
    | (some tok2, s2) =>
      match strtok s2 [','] with
      | (none, _) => none
      | (some tok3, s3) =>
        match strtok s3 ['\n'] with
        | (none, _) => none
        | (some tok4, _) =>
          some ⟨_strtoui64 tok1, parse_severity tok2, tok3, strip_quotes tok4⟩

/-! ## CSV files -/

/-- The header line written by `save_logs_to_csv`, without its newline. -/
def csv_header : List Char := "Timestamp,Severity,Origin,Content".toList

/-- One `fprintf(f, "%llu,%s,%s,%s\n", ...)` of `save_logs_to_csv`. -/
def csv_line (log : log_entry_t) : List Char :=
  fmt_llu log.timestamp ++ [','] ++ severity_to_string log.severity ++ [','] ++
    c_str log.origin ++ [','] ++ c_str log.content ++ ['\n']

/-- The function `save_logs_to_csv`: `opened` tells whether `fopen` succeeded; the result is
the return value and the text written. -/
def save_logs_to_csv (opened : Bool) (logs : List log_entry_t) : Bool × List Char :=
  if opened then (true, csv_header ++ ['\n'] ++ (logs.map csv_line).flatten)
  else (false, [])

/-- The header branch of the loop of `load_logs_from_csv`: `some true` when
the four tokens match, `some false` at the first token that differs
(`return false`), `none` when `strtok` yields a null pointer, which goes
unchecked into `strcmp`. -/
def check_header (line : List Char) : Option Bool :=
  match strtok line [','] with
  | (none, _) => none
  | (some tok1, s1) =>
    if strcmp tok1 "Timestamp".toList ≠ 0 then some false
    else match strtok s1 [','] with
    | (none, _) => none
    | (some tok2, s2) =>
      if strcmp tok2 "Severity".toList ≠ 0 then some false
      else match strtok s2 [','] with
      | (none, _) => none
      | (some tok3, s3) =>
        if strcmp tok3 "Origin".toList ≠ 0 then some false
        else match strtok s3 ['\n'] with
        | (none, _) => none
        | (some tok4, _) =>
          if strcmp tok4 "Content".toList ≠ 0 then some false else some true

/-- The `while (fgets(line, sizeof(line), f))` loop of `load_logs_from_csv`.
Every turn consumes at least one character of the stream, so `fuel` above
the length of the stream is never used up. -/
def load_loop : Nat → List Char → Bool → List log_entry_t → Option (Bool × List log_entry_t)
  | 0, _, _, logs => some (true, logs)
  | fuel + 1, f, is_header, logs =>
    match fgets 1024 f with
    | none => some (true, logs)
    | some (line, rest) =>
      if is_header then
        match check_header (c_str line) with
        | none => none
        | some false => some (false, logs)
        | some true => load_loop fuel rest false logs
      else
        match tokenize_entry (c_str line) with
        | none => load_loop fuel rest false logs
        | some entry => load_loop fuel rest false (logs ++ [entry])

/-- The call `clear()` of a vector. -/
def vector_clear (_v : List log_entry_t) : List log_entry_t := []

/-- The function `load_logs_from_csv`: `file` is the content of the file, `none` when it
cannot be opened; `logs` is the destination vector on entry. The result is
the return value and the destination vector on exit. -/
def load_logs_from_csv (file : Option (List Char)) (logs : List log_entry_t) :
    Option (Bool × List log_entry_t) :=
  match file with
  | none => some (false, logs)
  | some f => load_loop (f.length + 1) f true (vector_clear logs)

/-- The "Load" button of `show_log_window` with a file selected: clears
`log_messages`, calls `load_logs_from_csv` and drops its return value. The
result is `log_messages` afterwards. -/
def load_button (file : Option (List Char)) (log_messages : List log_entry_t) :
    Option (List log_entry_t) :=
  (load_logs_from_csv file (vector_clear log_messages)).map Prod.snd

/-! ## Ingestion -/

/-- The `WM_COPYDATA` branch of `wnd_proc`: `dwData` and `lpData` are the
fields of the `COPYDATASTRUCT`; the result is `log_messages` afterwards.
The branch is reached when `ImGui_ImplWin32_WndProcHandler` returns zero, as
it does for this message. -/
def wnd_proc (dwData : Nat) (lpData : List Char) (log_messages : List log_entry_t) :
    List log_entry_t :=
  if dwData = 0xBA88AC0DA then
    match tokenize_entry (c_str lpData) with
    | none => log_messages
    | some entry => log_messages ++ [entry]
  else log_messages

/-! ## Filter of the log table -/

/-- The vector `filtered_logs` built in `show_log_window`; the pointers it
holds are represented by the entries they point to. -/
def filtered_logs (filter_buf : List Char) (logs : List log_entry_t) : List log_entry_t :=
  if 0 < (c_str filter_buf).length then
    logs.filter (fun log =>
      strstr (c_str log.content) (c_str filter_buf) ||
      strstr (severity_to_string log.severity) (c_str filter_buf) ||
      strstr (c_str log.origin) (c_str filter_buf))
  else logs

/-! ## The entries read from the data lines -/

/-- The entries the loop of `load_logs_from_csv` appends while it reads the
stream `f` after the header: one `fgets` buffer at a time, each buffer
giving one entry or none. -/
def entries_loop : Nat → List Char → List log_entry_t
  | 0, _ => []
  | fuel + 1, f =>
    match fgets 1024 f with
    | none => []
    | some (line, rest) => (tokenize_entry (c_str line)).toList ++ entries_loop fuel rest

/-- The entries read from the data part `f` of a file. -/
def data_entries (f : List Char) : List log_entry_t :=
  entries_loop (f.length + 1) f

/-! ## Vocabulary of the statements -/

/-- Two strings are equal up to ASCII letter case. -/
def eq_ignore_case (a b : List Char) : Prop :=
  a.map Char.toLower = b.map Char.toLower

instance (a b : List Char) : Decidable (eq_ignore_case a b) := by
  unfold eq_ignore_case; infer_instance

/-- The needle occurs in one of the three searched columns of the entry: its
content, the name of its severity, or its origin. -/
def needle_matches (needle : List Char) (log : log_entry_t) : Prop :=
  needle <:+: log.content ∨ needle <:+: severity_to_string log.severity ∨
    needle <:+: log.origin

instance (needle : List Char) (log : log_entry_t) : Decidable (needle_matches needle log) := by
  unfold needle_matches; infer_instance

/-- Neither string of the entry holds a NUL: the entry was built from C
strings, as every entry of the program is. -/
def entry_is_c_strings (log : log_entry_t) : Prop :=
  '\x00' ∉ log.origin ∧ '\x00' ∉ log.content

instance (log : log_entry_t) : Decidable (entry_is_c_strings log) := by
  unfold entry_is_c_strings; infer_instance

/-- The text `t,s,o,c`: four fields joined by commas. -/
def join_fields (t s o c : List Char) : List Char :=
  t ++ ',' :: (s ++ ',' :: (o ++ ',' :: c))

/-- The line `l` has four non-empty fields, the first three without a comma,
and `e` is the entry read from them. -/
def line_entry (l : List Char) (e : log_entry_t) : Prop :=
  ∃ t s o c : List Char, t ≠ [] ∧ s ≠ [] ∧ o ≠ [] ∧ c ≠ [] ∧
    ',' ∉ t ∧ ',' ∉ s ∧ ',' ∉ o ∧ l = join_fields t s o c ∧
    e = ⟨_strtoui64 t, parse_severity s, o, strip_quotes c⟩

/-- A well-formed data line: four non-empty fields. -/
def well_formed_line (l : List Char) : Prop := ∃ e, line_entry l e

/-- A short data line: fewer than four fields, that is, fewer than three commas. -/
def short_line (l : List Char) : Prop := l.count ',' < 3

/-- The text made of the given lines, each ended by a newline. -/
def unlines : List (List Char) → List Char
  | [] => []
  | l :: ls => l ++ '\n' :: unlines ls

/-- The entry can be written to a CSV line and read back: a `u64` timestamp,
a non-empty origin without comma, newline or NUL, a non-empty content
without comma, newline or NUL that is not wrapped in double quotes, and a
line that, without its newline, fits the 1024-byte buffer of the reader. -/
def csv_safe (r : log_entry_t) : Prop :=
  r.timestamp < 2 ^ 64 ∧
  (r.origin ≠ [] ∧ ',' ∉ r.origin ∧ '\n' ∉ r.origin ∧ '\x00' ∉ r.origin) ∧
  (r.content ≠ [] ∧ ',' ∉ r.content ∧ '\n' ∉ r.content ∧ '\x00' ∉ r.content) ∧
  ¬ (2 ≤ r.content.length ∧ r.content.head? = some '"' ∧ r.content.getLast? = some '"') ∧
  (csv_line r).length ≤ 1024

instance (r : log_entry_t) : Decidable (csv_safe r) := by
  unfold csv_safe; infer_instance

instance (l : List Char) : Decidable (short_line l) := by
  unfold short_line; infer_instance

/-- A run of commas. -/
def commas (k : List Char) : Prop := ∀ x ∈ k, x = ','

/-- The line is the header up to empty fields: runs of commas may stand
before each of the first three column names. -/
def header_like (L : List Char) : Prop :=
  ∃ k1 k2 k3 : List Char, commas k1 ∧ commas k2 ∧ commas k3 ∧
    L = k1 ++ ("Timestamp".toList ++ ',' :: (k2 ++ ("Severity".toList ++ ',' ::
      (k3 ++ ("Origin".toList ++ ',' :: "Content".toList)))))

/-- The line is like the header up to the comma behind `Origin` and ends there. -/
def header_cut (L : List Char) : Prop :=
  ∃ k1 k2 k3 : List Char, commas k1 ∧ commas k2 ∧ commas k3 ∧
    L = k1 ++ ("Timestamp".toList ++ ',' :: (k2 ++ ("Severity".toList ++ ',' ::
      (k3 ++ ("Origin".toList ++ [','])))))

/-! ## Rows of the log table -/

/-- The conversion of the `u64` timestamp to `time_t`, a signed 64-bit integer,
in `time_t tm = logs[i].timestamp;`: values from `2 ^ 63` up become negative. -/
def to_time_t (timestamp : Nat) : Int :=
  if timestamp % 2 ^ 64 < 2 ^ 63 then Int.ofNat (timestamp % 2 ^ 64)
  else Int.ofNat (timestamp % 2 ^ 64) - 2 ^ 64

/-- What one row of the log table shows: the text that `strftime` leaves in
`buffer` for the first column, and the strings drawn in the other three
columns. -/
structure table_row where
  datetime : List Char
  severity : List Char
  origin : List Char
  content : List Char
  deriving DecidableEq, Repr

/-- What the loop of `show_log_window` does at an index: there is no such row
(the index is not below `filtered_logs.size()`), the behaviour is undefined
(`localtime` returned a null pointer, which goes unchecked into `strftime`),
or the row is drawn. -/
inductive row_outcome where
  | no_row
  | undefined
  | drawn (row : table_row)
  deriving DecidableEq, Repr

/-- Row `i` of the loop `for (int i = 0; i < filtered_logs.size(); ++i)` of
`show_log_window`. The parameter `date_text` stands for the two library
calls `localtime(&tm)` and `strftime(buffer, 26, ..., tm_info)`: it gives the
text left in `buffer`, and `none` where `localtime` returns a null pointer.
The first column is drawn from `logs[i].timestamp`, converted to `time_t`,
the three others through the pointer `filtered_logs[i]`. -/
def show_log_window_row (date_text : Int → Option (List Char)) (filter_buf : List Char)
    (logs : List log_entry_t) (i : Nat) : row_outcome :=
  match (filtered_logs filter_buf logs)[i]? with
  | none => row_outcome.no_row
  | some p =>
    match logs[i]? with
    | none => row_outcome.undefined
    | some l =>
      match date_text (to_time_t l.timestamp) with
      | none => row_outcome.undefined
      | some buffer =>
        row_outcome.drawn
          ⟨buffer, severity_to_string p.severity, c_str p.origin, c_str p.content⟩

/-- The outcome of a row that shows the four fields of the one entry `p`. -/
def row_of_entry (date_text : Int → Option (List Char)) (p : log_entry_t) : row_outcome :=
  match date_text (to_time_t p.timestamp) with
  | none => row_outcome.undefined
  | some buffer =>
    row_outcome.drawn
      ⟨buffer, severity_to_string p.severity, c_str p.origin, c_str p.content⟩

/-- What `_strtoui64` looks at for digits: the string behind its leading white
space and one optional sign. -/
def skip_space_and_sign (t : List Char) : List Char :=
  if (t.dropWhile isspace).head? = some '-' ∨ (t.dropWhile isspace).head? = some '+' then
    (t.dropWhile isspace).drop 1
  else t.dropWhile isspace

/-- The field holds no number where `_strtoui64` looks for one: behind leading
white space and an optional sign it does not start with a decimal digit. -/
def no_leading_digit (t : List Char) : Prop :=
  (skip_space_and_sign t).takeWhile Char.isDigit = []

instance (t : List Char) : Decidable (no_leading_digit t) := by
  unfold no_leading_digit; infer_instance

/-! ## The stages of `tokenize_entry` -/

/-- The rest of `tokenize_entry` from its fourth `strtok` on. -/
def entry_stage4 (tok1 tok2 tok3 s3 : List Char) : Option log_entry_t :=
  match strtok s3 ['\n'] with
  | (none, _) => none
  | (some tok4, _) => some ⟨_strtoui64 tok1, parse_severity tok2, tok3, strip_quotes tok4⟩

/-- The rest of `tokenize_entry` from its third `strtok` on. -/
def entry_stage3 (tok1 tok2 s2 : List Char) : Option log_entry_t :=
  match strtok s2 [','] with
  | (none, _) => none
  | (some tok3, s3) => entry_stage4 tok1 tok2 tok3 s3

/-- The rest of `tokenize_entry` from its second `strtok` on. -/
def entry_stage2 (tok1 s1 : List Char) : Option log_entry_t :=
  match strtok s1 [','] with
  | (none, _) => none
  | (some tok2, s2) => entry_stage3 tok1 tok2 s2

/-! ## Lemmas on the C library functions -/

theorem c_str_eq_self {l : List Char} (h : '\x00' ∉ l) : c_str l = l := by
  unfold c_str
  rw [List.takeWhile_eq_self_iff]
  intro c hc
  have : c ≠ '\x00' := by rintro rfl; exact h hc
  simpa using this

theorem nul_not_mem_c_str (l : List Char) : '\x00' ∉ c_str l := by
  intro h
  have := List.mem_takeWhile_imp h
  simp at this

theorem c_str_append_of_not_mem {l : List Char} (h : '\x00' ∉ l) (r : List Char) :
    c_str (l ++ r) = l ++ c_str r := by
  unfold c_str
  rw [List.takeWhile_append_of_pos]
  intro c hc
  have : c ≠ '\x00' := by rintro rfl; exact h hc
  simpa using this

theorem strcmp_eq_zero_iff (a b : List Char) : strcmp a b = 0 ↔ a = b := by
  induction a generalizing b with
  | nil => cases b <;> simp [strcmp]
  | cons x xs ih =>
    cases b with
    | nil => simp [strcmp]
    | cons y ys =>
      by_cases hxy : x = y
      · simp [strcmp, hxy, ih]
      · simp only [strcmp, hxy, if_false, List.cons.injEq, false_and, iff_false]
        split <;> decide

theorem stricmp_eq_zero_iff (a b : List Char) :
    _stricmp a b = 0 ↔ a.map Char.toLower = b.map Char.toLower := by
  induction a generalizing b with
  | nil => cases b <;> simp [_stricmp]
  | cons x xs ih =>
    cases b with
    | nil => simp [_stricmp]
    | cons y ys =>
      by_cases hxy : x.toLower = y.toLower
      · simp [_stricmp, hxy, ih]
      · simp only [_stricmp, hxy, if_false, List.map_cons, List.cons.injEq, false_and, iff_false]
        split <;> decide

theorem strstr_iff_infix (hay needle : List Char) : strstr hay needle = true ↔ needle <:+: hay := by
  induction hay with
  | nil => cases needle <;> simp [strstr]
  | cons h hs ih =>
    rw [strstr, Bool.or_eq_true, ih, List.infix_cons_iff, List.isPrefixOf_iff_prefix]

/-! ### `strtok` with a single delimiter -/

theorem strtok_nil (delim : List Char) : strtok [] delim = (none, []) := rfl

theorem strtok_token (d : Char) {tok : List Char} (rest : List Char) (hne : tok ≠ [])
    (hd : d ∉ tok) : strtok (tok ++ d :: rest) [d] = (some tok, rest) := by
  cases tok with
  | nil => exact absurd rfl hne
  | cons c cs =>
    have hc : c ≠ d := by rintro rfl; exact hd (List.mem_cons_self _ _)
    have hcs : ∀ a ∈ c :: cs, (!List.elem a [d]) = true := by
      intro a ha
      have : a ≠ d := by rintro rfl; exact hd ha
      simpa using this
    have h1 : List.dropWhile (fun x => List.elem x [d]) ((c :: cs) ++ d :: rest)
        = (c :: cs) ++ d :: rest := by
      simp [List.dropWhile_cons, hc]
    unfold strtok
    rw [h1]
    simp only [List.cons_append]
    rw [← List.cons_append, List.takeWhile_append_of_pos hcs, List.dropWhile_append_of_pos hcs]
    simp

theorem strtok_last (d : Char) {tok : List Char} (hne : tok ≠ []) (hd : d ∉ tok) :
    strtok tok [d] = (some tok, []) := by
  cases tok with
  | nil => exact absurd rfl hne
  | cons c cs =>
    have hc : c ≠ d := by rintro rfl; exact hd (List.mem_cons_self _ _)
    have hcs : ∀ a ∈ c :: cs, (!List.elem a [d]) = true := by
      intro a ha
      have : a ≠ d := by rintro rfl; exact hd ha
      simpa using this
    have h1 : List.dropWhile (fun x => List.elem x [d]) (c :: cs) = c :: cs := by
      simp [List.dropWhile_cons, hc]
    unfold strtok
    rw [h1]
    simp only
    rw [List.takeWhile_eq_self_iff.2 hcs, List.dropWhile_eq_nil_iff.2 hcs]
    rfl

/-! ### Counting delimiters across `strtok` -/

theorem count_dropWhile_not_delim (d : Char) (l : List Char) (x : Char) (r : List Char)
    (h : l.dropWhile (fun a => !List.elem a [d]) = x :: r) :
    x = d ∧ r.count d + 1 ≤ l.count d := by
  induction l with
  | nil => simp at h
  | cons a l ih =>
    by_cases had : a = d
    · subst had
      simp [List.dropWhile_cons] at h
      obtain ⟨rfl, rfl⟩ := h
      simp
    · have h2 : (a :: l).dropWhile (fun a => !List.elem a [d]) =
          l.dropWhile (fun a => !List.elem a [d]) := by
        simp [List.dropWhile_cons, had]
      rw [h2] at h
      obtain ⟨hx, hr⟩ := ih h
      refine ⟨hx, ?_⟩
      rw [List.count_cons]
      omega

/-- After a call of `strtok` the saved position is the end of the string, or
it lies behind one more delimiter than before. -/
theorem strtok_count (d : Char) (str : List Char) :
    (strtok str [d]).2 = [] ∨ (strtok str [d]).2.count d + 1 ≤ str.count d := by
  unfold strtok
  cases h : str.dropWhile (fun c => List.elem c [d]) with
  | nil => left; rfl
  | cons c cs =>
    simp only
    cases h2 : (c :: cs).dropWhile (fun x => !List.elem x [d]) with
    | nil => left; rfl
    | cons x r =>
      right
      have h3 := (count_dropWhile_not_delim d (c :: cs) x r h2).2
      have h4 : (c :: cs).count d ≤ str.count d := by
        rw [← h]
        exact (List.dropWhile_sublist _).count_le _
      simp only [List.drop_succ_cons, List.drop_zero]
      omega

/-- A buffer with fewer than three commas yields no entry. -/
theorem tokenize_entry_few_commas (buf : List Char) (h : buf.count ',' < 3) :
    tokenize_entry buf = none := by
  unfold tokenize_entry
  split
  · rfl
  · rename_i tok1 s1 h1
    split
    · rfl
    · rename_i tok2 s2 h2
      split
      · rfl
      · rename_i tok3 s3 h3
        have e1 : s1 = (strtok buf [',']).2 := by rw [h1]
        have e2 : s2 = (strtok s1 [',']).2 := by rw [h2]
        have e3 : s3 = (strtok s2 [',']).2 := by rw [h3]
        have c1 := strtok_count ',' buf
        have c2 := strtok_count ',' s1
        have c3 := strtok_count ',' s2
        rw [← e1] at c1
        rw [← e2] at c2
        rw [← e3] at c3
        have hs3 : s3 = [] := by
          rcases c3 with c3 | c3
          · exact c3
          · rcases c2 with c2 | c2
            · rw [c2] at c3; simp at c3
            · rcases c1 with c1 | c1
              · rw [c1] at c2; simp at c2
              · omega
        subst hs3
        rfl

/-- A buffer `t,s,o,c` with non-empty fields, no comma in the first three and
no newline in the fourth, optionally followed by a newline and more, yields
the entry read from the four fields. -/
theorem tokenize_entry_fields {t s o c : List Char} (tail : List Char)
    (ht : t ≠ []) (hs : s ≠ []) (ho : o ≠ []) (hc : c ≠ [])
    (ht2 : ',' ∉ t) (hs2 : ',' ∉ s) (ho2 : ',' ∉ o) (hc2 : '\n' ∉ c)
    (htail : tail = [] ∨ tail.head? = some '\n') :
    tokenize_entry (t ++ ',' :: (s ++ ',' :: (o ++ ',' :: (c ++ tail)))) =
      some ⟨_strtoui64 t, parse_severity s, o, strip_quotes c⟩ := by
  have h4 : (strtok (c ++ tail) ['\n']).1 = some c := by
    rcases htail with rfl | h
    · rw [List.append_nil, strtok_last '\n' hc hc2]
    · cases tail with
      | nil => simp at h
      | cons x xs =>
        simp only [List.head?_cons, Option.some.injEq] at h
        subst h
        rw [strtok_token '\n' xs hc hc2]
  unfold tokenize_entry
  rw [strtok_token ',' _ ht ht2]
  simp only
  rw [strtok_token ',' _ hs hs2]
  simp only
  rw [strtok_token ',' _ ho ho2]
  simp only
  split
  · rename_i h
    rw [h] at h4
    simp at h4
  · rename_i tok4 s4 h
    rw [h] at h4
    simp only [Option.some.injEq] at h4
    rw [h4]

/-! ### Decimal numerals -/

theorem isDigit_toNat {c : Char} (h : c.isDigit = true) : 48 ≤ c.toNat ∧ c.toNat ≤ 57 := by
  simp only [Char.isDigit, Bool.and_eq_true, decide_eq_true_eq] at h
  obtain ⟨h1, h2⟩ := h
  rw [ge_iff_le, UInt32.le_def] at h1
  rw [UInt32.le_def] at h2
  simp only [Char.toNat, UInt32.toNat]
  exact ⟨h1, h2⟩

theorem isDigit_ne {c d : Char} (h : c.isDigit = true) (hd : d.toNat < 48) : c ≠ d := by
  rintro rfl
  have := (isDigit_toNat h).1
  omega

theorem not_mem_of_digits {t : List Char} (hd : ∀ c ∈ t, c.isDigit = true) {d : Char}
    (h : d.toNat < 48) : d ∉ t :=
  fun hm => isDigit_ne (hd d hm) h rfl

theorem digit_char (m : Nat) (h : m < 10) :
    (Char.ofNat (48 + m)).isDigit = true ∧ (Char.ofNat (48 + m)).toNat - 48 = m := by
  interval_cases m <;> decide

theorem digits_value_append (xs : List Char) (d : Char) :
    digits_value (xs ++ [d]) = digits_value xs * 10 + (d.toNat - 48) := by
  simp [digits_value, List.foldl_append]

theorem dec_digits_spec (fuel : Nat) : ∀ n : Nat, n < 10 ^ (fuel + 1) →
    dec_digits (fuel + 1) n ≠ [] ∧ (∀ c ∈ dec_digits (fuel + 1) n, c.isDigit = true) ∧
    digits_value (dec_digits (fuel + 1) n) = n := by
  induction fuel with
  | zero =>
    intro n hn
    have h0 : n / 10 = 0 := by omega
    have hm : n % 10 = n := by omega
    have hd := digit_char n (by omega)
    simp only [dec_digits, h0, if_true, List.nil_append, hm]
    refine ⟨by simp, ?_, ?_⟩
    · intro c hc
      rw [List.mem_singleton] at hc
      rw [hc]; exact hd.1
    · simp [digits_value, hd.2]
  | succ fuel ih =>
    intro n hn
    have hd := digit_char (n % 10) (Nat.mod_lt _ (by decide))
    rw [dec_digits]
    by_cases h0 : n / 10 = 0
    · have hm : n % 10 = n := by omega
      simp only [h0, if_true, List.nil_append]
      refine ⟨by simp, ?_, ?_⟩
      · intro c hc
        rw [List.mem_singleton] at hc
        rw [hc]; exact hd.1
      · simp only [digits_value, List.foldl_cons, List.foldl_nil]
        rw [hd.2]
        omega
    · have hlt : n / 10 < 10 ^ (fuel + 1) := by
        rw [Nat.div_lt_iff_lt_mul (by decide)]
        rw [pow_succ] at hn
        exact hn
      obtain ⟨_, i2, i3⟩ := ih (n / 10) hlt
      simp only [h0, if_false]
      refine ⟨by simp, ?_, ?_⟩
      · intro c hc
        rw [List.mem_append, List.mem_singleton] at hc
        rcases hc with hc | hc
        · exact i2 c hc
        · rw [hc]; exact hd.1
      · rw [digits_value_append, i3, hd.2]
        omega

theorem fmt_llu_spec {n : Nat} (hn : n < 2 ^ 64) :
    fmt_llu n ≠ [] ∧ (∀ c ∈ fmt_llu n, c.isDigit = true) ∧ digits_value (fmt_llu n) = n := by
  unfold fmt_llu
  rw [Nat.mod_eq_of_lt hn]
  exact dec_digits_spec 19 n (lt_trans hn (by norm_num))

theorem strtoui64_digits {t : List Char} (hd : ∀ c ∈ t, c.isDigit = true)
    (hv : digits_value t < 2 ^ 64) : _strtoui64 t = digits_value t := by
  cases t with
  | nil => decide
  | cons c cs =>
    have hc := hd c (List.mem_cons_self _ _)
    have hb := isDigit_toNat hc
    have hsp : isspace c = false := by
      have h1 : c ≠ ' ' := isDigit_ne hc (by decide)
      have h2 : ¬ c.toNat ≤ 13 := by omega
      simp [isspace, h1, h2]
    have hminus : c ≠ '-' := isDigit_ne hc (by decide)
    have hplus : c ≠ '+' := isDigit_ne hc (by decide)
    have htw : (c :: cs).takeWhile Char.isDigit = c :: cs :=
      List.takeWhile_eq_self_iff.2 hd
    have hdw : (c :: cs).dropWhile isspace = c :: cs := by simp [List.dropWhile_cons, hsp]
    unfold _strtoui64
    simp only [hdw, List.head?_cons, Option.some.injEq, hminus, hplus, or_self, if_false, htw]
    rw [if_neg (by omega)]

theorem strtoui64_fmt_llu {n : Nat} (hn : n < 2 ^ 64) : _strtoui64 (fmt_llu n) = n := by
  obtain ⟨_, h2, h3⟩ := fmt_llu_spec hn
  rw [strtoui64_digits h2 (by rw [h3]; exact hn), h3]

/-! ### Reading lines with `fgets` -/

theorem fgets_read_line (l rest : List Char) (hl : '\n' ∉ l) :
    ∀ k : Nat, l.length < k → fgets_read k (l ++ '\n' :: rest) = (l ++ ['\n'], rest) := by
  induction l with
  | nil =>
    intro k hk
    cases k with
    | zero => simp at hk
    | succ k => simp [fgets_read]
  | cons a l ih =>
    intro k hk
    have ha : a ≠ '\n' := by rintro rfl; exact hl (List.mem_cons_self _ _)
    have hl2 : '\n' ∉ l := fun h => hl (List.mem_cons_of_mem _ h)
    cases k with
    | zero => simp at hk
    | succ k =>
      have hk2 : l.length < k := by simpa using hk
      show fgets_read (k + 1) (a :: (l ++ '\n' :: rest)) = _
      rw [fgets_read, if_neg ha, ih hl2 k hk2]
      rfl

theorem fgets_read_all (l : List Char) (hl : '\n' ∉ l) :
    ∀ k : Nat, l.length ≤ k → fgets_read k l = (l, []) := by
  induction l with
  | nil =>
    intro k _
    cases k <;> rfl
  | cons a l ih =>
    intro k hk
    have ha : a ≠ '\n' := by rintro rfl; exact hl (List.mem_cons_self _ _)
    have hl2 : '\n' ∉ l := fun h => hl (List.mem_cons_of_mem _ h)
    cases k with
    | zero => simp at hk
    | succ k =>
      have hk2 : l.length ≤ k := by simpa using hk
      rw [fgets_read, if_neg ha, ih hl2 k hk2]

theorem fgets_read_append (k : Nat) (f : List Char) :
    (fgets_read k f).1 ++ (fgets_read k f).2 = f := by
  induction k generalizing f with
  | zero => simp [fgets_read]
  | succ k ih =>
    cases f with
    | nil => simp [fgets_read]
    | cons c f =>
      by_cases hc : c = '\n'
      · simp [fgets_read, hc]
      · simp [fgets_read, hc, ih f]

theorem fgets_read_fst_ne_nil (k : Nat) (c : Char) (f : List Char) :
    (fgets_read (k + 1) (c :: f)).1 ≠ [] := by
  by_cases hc : c = '\n' <;> simp [fgets_read, hc]

theorem fgets_read_length (k : Nat) (c : Char) (f : List Char) :
    (fgets_read (k + 1) (c :: f)).2.length ≤ f.length := by
  have h1 := congrArg List.length (fgets_read_append (k + 1) (c :: f))
  have h2 := List.length_pos.2 (fgets_read_fst_ne_nil k c f)
  simp only [List.length_append, List.length_cons] at h1
  omega

/-- Reading from `p ++ r`, where `p` ends with a newline, reads from `p`. -/
theorem fgets_read_within (r : List Char) (p : List Char) :
    ∀ k : Nat, p.getLast? = some '\n' →
      fgets_read k (p ++ r) = ((fgets_read k p).1, (fgets_read k p).2 ++ r) ∧
      ((fgets_read k p).2 = [] ∨ (fgets_read k p).2.getLast? = some '\n') := by
  induction p with
  | nil => intro k h; simp at h
  | cons a p ih =>
    intro k h
    cases k with
    | zero => exact ⟨by simp [fgets_read], Or.inr h⟩
    | succ k =>
      by_cases ha : a = '\n'
      · subst ha
        refine ⟨by simp [fgets_read], ?_⟩
        cases p with
        | nil => left; simp [fgets_read]
        | cons b p =>
          right
          simpa [fgets_read, List.getLast?_cons_cons] using h
      · cases p with
        | nil => simp at h; exact absurd h ha
        | cons b p =>
          rw [List.getLast?_cons_cons] at h
          obtain ⟨i1, i2⟩ := ih k h
          refine ⟨?_, ?_⟩
          · show fgets_read (k + 1) (a :: ((b :: p) ++ r)) = _
            rw [fgets_read, if_neg ha, i1, fgets_read, if_neg ha]
          · rw [fgets_read, if_neg ha]
            exact i2

theorem fgets_nil (n : Nat) : fgets n [] = none := rfl

theorem fgets_cons (c : Char) (f : List Char) :
    fgets 1024 (c :: f) = some (fgets_read 1023 (c :: f)) := rfl

/-! ### The loop of `load_logs_from_csv` on data lines -/

theorem load_loop_data (fuel : Nat) : ∀ (f : List Char) (logs : List log_entry_t),
    load_loop fuel f false logs = some (true, logs ++ entries_loop fuel f) := by
  induction fuel with
  | zero => intro f logs; simp [load_loop, entries_loop]
  | succ fuel ih =>
    intro f logs
    rw [load_loop, entries_loop]
    cases hf : fgets 1024 f with
    | none => simp
    | some lr =>
      obtain ⟨line, rest⟩ := lr
      simp only [Bool.false_eq_true, if_false]
      cases ht : tokenize_entry (c_str line) with
      | none => simp [ih]
      | some e => simp [ih]

theorem entries_loop_fuel (fuel1 : Nat) : ∀ (fuel2 : Nat) (f : List Char),
    f.length < fuel1 → f.length < fuel2 → entries_loop fuel1 f = entries_loop fuel2 f := by
  induction fuel1 with
  | zero => intro fuel2 f h; simp at h
  | succ fuel1 ih =>
    intro fuel2 f h1 h2
    cases fuel2 with
    | zero => simp at h2
    | succ fuel2 =>
      cases f with
      | nil => simp [entries_loop, fgets]
      | cons c f =>
        have hlen : (fgets_read 1023 (c :: f)).2.length ≤ f.length :=
          fgets_read_length 1022 c f
        simp only [List.length_cons] at h1 h2
        simp only [entries_loop, fgets_cons]
        rw [ih fuel2 _ (by omega) (by omega)]

theorem data_entries_nil : data_entries [] = [] := rfl

theorem data_entries_cons (c : Char) (f : List Char) :
    data_entries (c :: f) =
      (tokenize_entry (c_str (fgets_read 1023 (c :: f)).1)).toList ++
        data_entries (fgets_read 1023 (c :: f)).2 := by
  have hlen : (fgets_read 1023 (c :: f)).2.length ≤ f.length :=
    fgets_read_length 1022 c f
  unfold data_entries
  rw [entries_loop]
  simp only [fgets_cons, List.length_cons]
  rw [entries_loop_fuel (f.length + 1) ((fgets_read 1023 (c :: f)).2.length + 1) _
    (by omega) (by omega)]

theorem entries_loop_eq {fuel : Nat} {f : List Char} (h : f.length < fuel) :
    entries_loop fuel f = data_entries f :=
  entries_loop_fuel fuel (f.length + 1) f h (by omega)

theorem data_entries_line (l rest : List Char) (hl : '\n' ∉ l) (hlen : l.length + 1 ≤ 1023) :
    data_entries (l ++ '\n' :: rest) =
      (tokenize_entry (c_str (l ++ ['\n']))).toList ++ data_entries rest := by
  obtain ⟨c, f, hcf⟩ : ∃ c f, l ++ '\n' :: rest = c :: f := by
    cases l with
    | nil => exact ⟨_, _, rfl⟩
    | cons a l => exact ⟨_, _, rfl⟩
  rw [hcf, data_entries_cons, ← hcf, fgets_read_line l rest hl 1023 (by omega)]

theorem data_entries_last (l : List Char) (hne : l ≠ []) (hl : '\n' ∉ l)
    (hlen : l.length ≤ 1023) :
    data_entries l = (tokenize_entry (c_str l)).toList := by
  cases l with
  | nil => exact absurd rfl hne
  | cons c f =>
    rw [data_entries_cons, fgets_read_all (c :: f) hl 1023 hlen]
    simp [data_entries_nil]

theorem fgets_read_exact (l rest : List Char) (hl : '\n' ∉ l) :
    fgets_read l.length (l ++ rest) = (l, rest) := by
  induction l with
  | nil => cases rest <;> rfl
  | cons a l ih =>
    have ha : a ≠ '\n' := by rintro rfl; exact hl (List.mem_cons_self _ _)
    have hl2 : '\n' ∉ l := fun h => hl (List.mem_cons_of_mem _ h)
    show fgets_read (l.length + 1) (a :: (l ++ rest)) = _
    rw [fgets_read, if_neg ha, ih hl2]

/-- A line of at most 1023 characters is read as one buffer, with its newline
when there is room for it; a newline left over is read alone and gives no
entry. -/
theorem data_entries_line_tail (l rest : List Char) (hl : '\n' ∉ l) (hlen : l.length ≤ 1023) :
    ∃ tail, (tail = [] ∨ tail = ['\n']) ∧
      data_entries (l ++ '\n' :: rest) =
        (tokenize_entry (c_str (l ++ tail))).toList ++ data_entries rest := by
  by_cases h : l.length + 1 ≤ 1023
  · exact ⟨['\n'], Or.inr rfl, data_entries_line l rest hl h⟩
  · have h1023 : l.length = 1023 := by omega
    refine ⟨[], Or.inl rfl, ?_⟩
    obtain ⟨c, f, hcf⟩ : ∃ c f, l = c :: f := by
      cases l with
      | nil => simp at h1023
      | cons c f => exact ⟨_, _, rfl⟩
    have hr := fgets_read_exact l ('\n' :: rest) hl
    rw [h1023] at hr
    have e : l ++ '\n' :: rest = c :: (f ++ '\n' :: rest) := by rw [hcf]; rfl
    have hnewline : data_entries ('\n' :: rest) = data_entries rest := by
      have h0 := data_entries_line [] rest (by simp) (by simp)
      have h1 : tokenize_entry (c_str ([] ++ ['\n'])) = none := by decide
      rw [h1] at h0
      simpa using h0
    rw [List.append_nil, e, data_entries_cons, ← e, hr]
    simp only
    rw [hnewline]

/-- The entries of a stream that continues after a complete line are the
entries up to that line followed by the entries after it. -/
theorem data_entries_append (r : List Char) : ∀ (n : Nat) (p : List Char), p.length ≤ n →
    (p = [] ∨ p.getLast? = some '\n') →
    data_entries (p ++ r) = data_entries p ++ data_entries r := by
  intro n
  induction n with
  | zero =>
    intro p hp _
    have : p = [] := List.length_eq_zero.1 (by omega)
    subst this
    simp [data_entries_nil]
  | succ n ih =>
    intro p hp h
    cases p with
    | nil => simp [data_entries_nil]
    | cons c p =>
      have hlast : (c :: p).getLast? = some '\n' := by
        rcases h with h | h
        · simp at h
        · exact h
      obtain ⟨i1, i2⟩ := fgets_read_within r (c :: p) 1023 hlast
      have hlen : (fgets_read 1023 (c :: p)).2.length ≤ p.length :=
        fgets_read_length 1022 c p
      simp only [List.length_cons] at hp
      rw [List.cons_append, data_entries_cons, ← List.cons_append, i1]
      simp only
      rw [ih _ (by omega) i2, data_entries_cons c p, List.append_assoc]

theorem load_after_header (T : List Char) (S : List log_entry_t) :
    load_logs_from_csv (some (csv_header ++ '\n' :: T)) S = some (true, data_entries T) := by
  have hf : fgets 1024 (csv_header ++ '\n' :: T) = some (csv_header ++ ['\n'], T) := by
    have h := fgets_read_line csv_header T (by decide) 1023 (by decide)
    show some (fgets_read 1023 (csv_header ++ '\n' :: T)) = _
    rw [h]
  have hh : check_header (c_str (csv_header ++ ['\n'])) = some true := by decide
  have hlen : T.length < (csv_header ++ '\n' :: T).length := by
    rw [List.length_append, List.length_cons]
    omega
  unfold load_logs_from_csv
  simp only
  rw [load_loop, hf]
  simp only [if_true, hh]
  rw [load_loop_data, entries_loop_eq hlen]
  rfl

/-! ### Single lines -/

theorem count_c_str_le (l : List Char) (d : Char) : (c_str l).count d ≤ l.count d :=
  (List.takeWhile_sublist _).count_le _

theorem tokenize_entry_short (l tail : List Char) (h : l.count ',' < 3)
    (ht : tail.count ',' = 0) : tokenize_entry (c_str (l ++ tail)) = none := by
  apply tokenize_entry_few_commas
  have := count_c_str_le (l ++ tail) ','
  rw [List.count_append] at this
  omega

theorem severity_to_string_facts (s : log_severity_e) :
    severity_to_string s ≠ [] ∧ ',' ∉ severity_to_string s ∧ '\n' ∉ severity_to_string s ∧
      '\x00' ∉ severity_to_string s := by
  cases s <;> decide

theorem strip_quotes_eq_self {c : List Char}
    (h : ¬ (2 ≤ c.length ∧ c.head? = some '"' ∧ c.getLast? = some '"')) :
    strip_quotes c = c := by
  unfold strip_quotes
  rw [if_neg h]

/-! ### Every entry of the program is built from C strings -/

theorem strtok_subset (s delim tok r : List Char) (h : strtok s delim = (some tok, r)) :
    tok ⊆ s ∧ r ⊆ s := by
  unfold strtok at h
  split at h
  · simp at h
  · rename_i c cs hd
    simp only [Prod.mk.injEq, Option.some.injEq] at h
    obtain ⟨h1, h2⟩ := h
    have hs : (c :: cs) ⊆ s := by
      rw [← hd]
      exact (List.dropWhile_sublist _).subset
    constructor
    · rw [← h1]
      exact fun x hx => hs ((List.takeWhile_sublist _).subset hx)
    · rw [← h2]
      exact fun x hx => hs ((List.dropWhile_sublist _).subset ((List.drop_sublist _ _).subset hx))

theorem strip_quotes_subset (c : List Char) : strip_quotes c ⊆ c := by
  unfold strip_quotes
  split
  · exact fun x hx => (List.drop_sublist _ _).subset ((List.dropLast_sublist _).subset hx)
  · exact fun x hx => hx

theorem tokenize_entry_c_strings (buf : List Char) (e : log_entry_t)
    (h : tokenize_entry (c_str buf) = some e) : entry_is_c_strings e := by
  have hb := nul_not_mem_c_str buf
  unfold tokenize_entry at h
  split at h
  · simp at h
  · rename_i tok1 s1 h1
    split at h
    · simp at h
    · rename_i tok2 s2 h2
      split at h
      · simp at h
      · rename_i tok3 s3 h3
        split at h
        · simp at h
        · rename_i tok4 s4 h4
          simp only [Option.some.injEq] at h
          subst h
          have m1 := (strtok_subset _ _ _ _ h1).2
          have m2 := (strtok_subset _ _ _ _ h2).2
          have m3 := strtok_subset _ _ _ _ h3
          have m4 := (strtok_subset _ _ _ _ h4).1
          constructor
          · exact fun hx => hb (m1 (m2 (m3.1 hx)))
          · exact fun hx => hb (m1 (m2 (m3.2 (m4 (strip_quotes_subset _ hx)))))

theorem wnd_proc_c_strings (dwData : Nat) (lpData : List Char) (S : List log_entry_t)
    (hS : ∀ r ∈ S, entry_is_c_strings r) : ∀ r ∈ wnd_proc dwData lpData S, entry_is_c_strings r := by
  unfold wnd_proc
  split
  · cases h : tokenize_entry (c_str lpData) with
    | none => exact hS
    | some e =>
      intro r hr
      simp only [List.mem_append, List.mem_singleton] at hr
      rcases hr with hr | hr
      · exact hS r hr
      · rw [hr]
        exact tokenize_entry_c_strings lpData e h
  · exact hS

theorem entries_loop_c_strings (fuel : Nat) : ∀ f : List Char,
    ∀ r ∈ entries_loop fuel f, entry_is_c_strings r := by
  induction fuel with
  | zero => intro f r hr; simp [entries_loop] at hr
  | succ fuel ih =>
    intro f r hr
    rw [entries_loop] at hr
    cases hf : fgets 1024 f with
    | none => rw [hf] at hr; simp at hr
    | some lr =>
      obtain ⟨line, rest⟩ := lr
      rw [hf] at hr
      simp only [List.mem_append] at hr
      rcases hr with hr | hr
      · cases ht : tokenize_entry (c_str line) with
        | none => rw [ht] at hr; simp at hr
        | some e =>
          rw [ht] at hr
          simp only [Option.toList_some, List.mem_singleton] at hr
          rw [hr]
          exact tokenize_entry_c_strings line e ht
      · exact ih rest r hr

theorem load_c_strings (f : List Char) (S : List log_entry_t) (ok : Bool)
    (logs : List log_entry_t) (h : load_logs_from_csv (some f) S = some (ok, logs)) :
    ∀ r ∈ logs, entry_is_c_strings r := by
  unfold load_logs_from_csv at h
  simp only at h
  rw [load_loop] at h
  cases hf : fgets 1024 f with
  | none =>
    rw [hf] at h
    simp only [Option.some.injEq, Prod.mk.injEq] at h
    rw [← h.2]
    intro r hr
    simp [vector_clear] at hr
  | some lr =>
    obtain ⟨line, rest⟩ := lr
    rw [hf] at h
    simp only [if_true] at h
    cases hh : check_header (c_str line) with
    | none => rw [hh] at h; simp at h
    | some b =>
      cases b with
      | false =>
        rw [hh] at h
        simp only [Option.some.injEq, Prod.mk.injEq] at h
        rw [← h.2]
        intro r hr
        simp [vector_clear] at hr
      | true =>
        rw [hh] at h
        simp only at h
        rw [load_loop_data] at h
        simp only [Option.some.injEq, Prod.mk.injEq] at h
        rw [← h.2]
        intro r hr
        simp only [vector_clear, List.nil_append] at hr
        exact entries_loop_c_strings _ _ r hr

/-! ## Severity names -/

/-- C10. `parse_severity` recognises each of the seven names in any letter case and
returns its severity, so it inverts `severity_to_string`; a string that is
none of the seven names up to letter case gives `INFO`; it is a total
function, so it always returns a severity. -/
theorem parse_severity_spec :
    (∀ (s : log_severity_e) (t : List Char),
        eq_ignore_case t (severity_to_string s) → parse_severity t = s) ∧
    (∀ s : log_severity_e, parse_severity (severity_to_string s) = s) ∧
    (∀ t : List Char, (∀ s : log_severity_e, ¬ eq_ignore_case t (severity_to_string s)) →
        parse_severity t = INFO) ∧
    (∀ t : List Char, ∃ s : log_severity_e, parse_severity t = s) := by
  refine ⟨?_, ?_, ?_, fun t => ⟨_, rfl⟩⟩
  · intro s t h
    unfold eq_ignore_case at h
    simp only [parse_severity, stricmp_eq_zero_iff, h]
    cases s <;> decide
  · intro s
    cases s <;> decide
  · intro t h
    have h1 : ¬ (t.map Char.toLower = "INFO".toList.map Char.toLower) := h INFO
    have h2 : ¬ (t.map Char.toLower = "WARN".toList.map Char.toLower) := h WARN
    have h3 : ¬ (t.map Char.toLower = "FAIL".toList.map Char.toLower) := h FAIL
    have h4 : ¬ (t.map Char.toLower = "SUCC".toList.map Char.toLower) := h SUCC
    have h5 : ¬ (t.map Char.toLower = "CRIT".toList.map Char.toLower) := h CRIT
    have h6 : ¬ (t.map Char.toLower = "DBUG".toList.map Char.toLower) := h DBUG
    have h7 : ¬ (t.map Char.toLower = "TRCE".toList.map Char.toLower) := h TRCE
    simp only [parse_severity, stricmp_eq_zero_iff, h1, h2, h3, h4, h5, h6, h7, if_false]

/-- Witness of C10: a mixed-case name, the round trip of `CRIT` and an unknown
name. -/
theorem parse_severity_spec_witness :
    parse_severity "wArN".toList = WARN ∧
    parse_severity (severity_to_string CRIT) = CRIT ∧
    parse_severity "BOGUS".toList = INFO :=
  ⟨parse_severity_spec.1 WARN "wArN".toList (by decide),
   parse_severity_spec.2.1 CRIT,
   parse_severity_spec.2.2.1 "BOGUS".toList (by intro s; cases s <;> decide)⟩

/-! ## Filter of the log table -/

/-- C9. For entries built from C strings and the needle held by `filter_buf`, the
filtered list is the sublist of the entries in which the needle occurs in the
content, the severity name or the origin, in the same order and multiplicity;
it is a subsequence of the list, and the whole list for the empty needle. -/
theorem filtered_logs_spec (filter_buf : List Char) (R : List log_entry_t)
    (hR : ∀ r ∈ R, entry_is_c_strings r) :
    filtered_logs filter_buf R =
      R.filter (fun r => decide (needle_matches (c_str filter_buf) r)) ∧
    List.Sublist (filtered_logs filter_buf R) R ∧
    (c_str filter_buf = [] → filtered_logs filter_buf R = R) := by
  have hsub : List.Sublist (filtered_logs filter_buf R) R := by
    unfold filtered_logs
    split
    · exact List.filter_sublist _
    · exact List.Sublist.refl _
  have hnil : c_str filter_buf = [] → filtered_logs filter_buf R = R := by
    intro h
    simp [filtered_logs, h]
  refine ⟨?_, hsub, hnil⟩
  by_cases hn : c_str filter_buf = []
  · rw [hnil hn, hn]
    symm
    rw [List.filter_eq_self]
    intro r _
    simp [needle_matches]
  · have hpos : 0 < (c_str filter_buf).length := List.length_pos.2 hn
    unfold filtered_logs
    rw [if_pos hpos]
    apply List.filter_congr
    intro r hr
    obtain ⟨ho, hc⟩ := hR r hr
    rw [c_str_eq_self ho, c_str_eq_self hc]
    simp only [needle_matches, Bool.decide_or, strstr_iff_infix, Bool.or_assoc,
      ← strstr_iff_infix, Bool.decide_eq_true]

/-- Witness of C9: three entries filtered by the needle `WARN`. -/
theorem filtered_logs_spec_witness :
    filtered_logs "WARN".toList
        [⟨1, INFO, "a".toList, "x".toList⟩, ⟨2, WARN, "b".toList, "y".toList⟩,
         ⟨3, INFO, "c".toList, "no WARN here".toList⟩] =
      [⟨1, INFO, "a".toList, "x".toList⟩, ⟨2, WARN, "b".toList, "y".toList⟩,
       ⟨3, INFO, "c".toList, "no WARN here".toList⟩].filter
        (fun r => decide (needle_matches (c_str "WARN".toList) r)) :=
  (filtered_logs_spec "WARN".toList
    [⟨1, INFO, "a".toList, "x".toList⟩, ⟨2, WARN, "b".toList, "y".toList⟩,
     ⟨3, INFO, "c".toList, "no WARN here".toList⟩]
    (by decide)).1

theorem join_fields_count (t s o c : List Char) : 3 ≤ (join_fields t s o c).count ',' := by
  simp only [join_fields, List.count_append, List.count_cons_self]
  omega

/-- C5. A payload with fewer than three commas, hence fewer than four fields,
produces no entry: the store is the same after the `WM_COPYDATA` handler. -/
theorem wnd_proc_incomplete_message (S : List log_entry_t) (dwData : Nat) (lpData : List Char)
    (h : (c_str lpData).count ',' < 3) : wnd_proc dwData lpData S = S := by
  unfold wnd_proc
  rw [tokenize_entry_few_commas _ h]
  simp

/-- Witness of C5: concrete scenario 5 of the specification. -/
theorem wnd_proc_incomplete_message_witness :
    wnd_proc 0xBA88AC0DA "1700000000,INFO,engine".toList
      [⟨1, INFO, "a".toList, "x".toList⟩] = [⟨1, INFO, "a".toList, "x".toList⟩] :=
  wnd_proc_incomplete_message [⟨1, INFO, "a".toList, "x".toList⟩] 0xBA88AC0DA
    "1700000000,INFO,engine".toList (by decide)

/-- A line `t,s,o,c` without NUL, followed by the end of the buffer or by a
newline, is read as the entry of its four fields. -/
theorem tokenize_entry_line {t s o c : List Char} (tail : List Char)
    (ht : t ≠ []) (hs : s ≠ []) (ho : o ≠ []) (hc : c ≠ [])
    (ht2 : ',' ∉ t) (hs2 : ',' ∉ s) (ho2 : ',' ∉ o)
    (hnl : '\n' ∉ join_fields t s o c) (hnul : '\x00' ∉ join_fields t s o c)
    (htail : tail = [] ∨ tail = ['\n']) :
    tokenize_entry (c_str (join_fields t s o c ++ tail)) =
      some ⟨_strtoui64 t, parse_severity s, o, strip_quotes c⟩ := by
  have hc2 : '\n' ∉ c := by
    intro h
    apply hnl
    simp [join_fields, h]
  have hnul2 : '\x00' ∉ join_fields t s o c ++ tail := by
    rcases htail with rfl | rfl
    · simpa using hnul
    · simp only [List.mem_append, List.mem_singleton, not_or]
      exact ⟨hnul, by decide⟩
  have htail2 : tail = [] ∨ tail.head? = some '\n' := by
    rcases htail with rfl | rfl
    · exact Or.inl rfl
    · exact Or.inr rfl
  rw [c_str_eq_self hnul2]
  have h := tokenize_entry_fields tail ht hs ho hc ht2 hs2 ho2 hc2 htail2
  simpa [join_fields, List.append_assoc] using h

/-- Counterexample to C7 as stated: the data line `2,WARN,o,y` with the
two-character origin `b` NUL has non-empty fields without comma or newline
and fits the line buffer, yet the load yields no entry for it: the buffer
is read as a C string, which ends at the NUL, and only three tokens are
found. -/
theorem load_data_line_nul_origin :
    (['b', '\x00'] ≠ [] ∧ ',' ∉ ['b', '\x00'] ∧ '\n' ∉ ['b', '\x00']) ∧
    (join_fields "2".toList "WARN".toList ['b', '\x00'] "y".toList).length ≤ 1023 ∧
    load_logs_from_csv (some (csv_header ++ '\n' ::
      (join_fields "2".toList "WARN".toList ['b', '\x00'] "y".toList ++ ['\n']))) [] =
      some (true, []) ∧
    load_logs_from_csv (some (csv_header ++ '\n' ::
      (join_fields "2".toList "WARN".toList ['b', '\x00'] "y".toList ++ ['\n']))) [] ≠
      some (true, [⟨2, WARN, ['b', '\x00'], "y".toList⟩]) := by
  decide

/-- C7, amended. A data line `t,s,o,c` that holds no NUL, starts a line after a
valid header, fits the 1024-byte line buffer (at most 1023 characters), has
non-empty `t`, `s`, `o` without comma and a non-empty `c`, and is followed by
a newline or by the end of the file, yields one entry, between the entries
of the text before it and those of the text after it: origin `o`, severity
`parse_severity s`, and content `c` without its first and last character
when `c` has length at least 2 and begins and ends with a double quote, `c`
itself otherwise. -/
theorem load_data_line (S : List log_entry_t) (P tail t s o c : List Char)
    (hP : P = [] ∨ P.getLast? = some '\n')
    (htail : tail = [] ∨ tail.head? = some '\n')
    (ht : t ≠ []) (hs : s ≠ []) (ho : o ≠ []) (hc : c ≠ [])
    (ht2 : ',' ∉ t) (hs2 : ',' ∉ s) (ho2 : ',' ∉ o)
    (hnl : '\n' ∉ join_fields t s o c) (hnul : '\x00' ∉ join_fields t s o c)
    (hfit : (join_fields t s o c).length ≤ 1023) :
    load_logs_from_csv (some (csv_header ++ '\n' :: (P ++ (join_fields t s o c ++ tail)))) S =
      some (true, data_entries P ++
        ⟨_strtoui64 t, parse_severity s, o,
          if 2 ≤ c.length ∧ c.head? = some '"' ∧ c.getLast? = some '"'
          then (c.drop 1).dropLast else c⟩ :: data_entries (tail.drop 1)) := by
  have hne : join_fields t s o c ≠ [] := by
    cases t with
    | nil => exact absurd rfl ht
    | cons a t => simp [join_fields]
  rw [load_after_header, data_entries_append _ P.length P (le_refl _) hP]
  congr 2
  rcases htail with rfl | h
  · rw [List.append_nil, data_entries_last _ hne hnl (by omega)]
    have h := tokenize_entry_line [] ht hs ho hc ht2 hs2 ho2 hnl hnul (Or.inl rfl)
    rw [List.append_nil] at h
    rw [h]
    rfl
  · cases tail with
    | nil => simp at h
    | cons x Q =>
      simp only [List.head?_cons, Option.some.injEq] at h
      subst h
      obtain ⟨tl, htl, e⟩ := data_entries_line_tail _ Q hnl hfit
      rw [e, tokenize_entry_line tl ht hs ho hc ht2 hs2 ho2 hnl hnul htl]
      rfl

/-- Witness of C7, amended: concrete scenario 3 of the specification, between two
other lines. -/
theorem load_data_line_witness :
    load_logs_from_csv (some (csv_header ++ '\n' ::
      ("0,x\n".toList ++ (join_fields "1".toList "INFO".toList "a".toList
        "\"hello, world\"".toList ++ "\n2,WARN,b,c\n".toList)))) [] =
      some (true, [⟨1, INFO, "a".toList, "hello, world".toList⟩,
        ⟨2, WARN, "b".toList, "c".toList⟩]) :=
  (load_data_line [] "0,x\n".toList "\n2,WARN,b,c\n".toList "1".toList "INFO".toList
    "a".toList "\"hello, world\"".toList (by decide) (by decide) (by decide) (by decide)
    (by decide) (by decide) (by decide) (by decide) (by decide) (by decide) (by decide)
    (by decide)).trans (by decide)

/-- What one buffer holding the line `l` gives, by the kind of the line. -/
theorem tokenize_entry_by_kind (l tail : List Char) (hnl : '\n' ∉ l) (hnul : '\x00' ∉ l)
    (htail : tail = [] ∨ tail = ['\n']) (hk : well_formed_line l ∨ short_line l) :
    (3 ≤ l.count ',' → ∃ e, tokenize_entry (c_str (l ++ tail)) = some e ∧ line_entry l e) ∧
    (¬ 3 ≤ l.count ',' → tokenize_entry (c_str (l ++ tail)) = none) ∧
    (well_formed_line l ↔ 3 ≤ l.count ',') := by
  have hwf : well_formed_line l → 3 ≤ l.count ',' := by
    rintro ⟨e, t, s, o, c, -, -, -, -, -, -, -, rfl, -⟩
    exact join_fields_count t s o c
  refine ⟨?_, ?_, hwf, ?_⟩
  · intro h3
    rcases hk with hk | hk
    · obtain ⟨e, t, s, o, c, ht, hs, ho, hc, ht2, hs2, ho2, rfl, rfl⟩ := hk
      exact ⟨_, tokenize_entry_line tail ht hs ho hc ht2 hs2 ho2 hnl hnul htail,
        t, s, o, c, ht, hs, ho, hc, ht2, hs2, ho2, rfl, rfl⟩
    · unfold short_line at hk
      omega
  · intro h3
    apply tokenize_entry_short l tail (by omega)
    rcases htail with rfl | rfl <;> decide
  · intro h3
    rcases hk with hk | hk
    · exact hk
    · unfold short_line at hk
      omega

theorem data_entries_lines (lines : List (List Char)) (last : List Char)
    (h : ∀ l ∈ lines ++ [last], '\n' ∉ l ∧ '\x00' ∉ l ∧ l.length ≤ 1023 ∧
      (well_formed_line l ∨ short_line l)) :
    List.Forall₂ line_entry ((lines ++ [last]).filter (fun l => decide (3 ≤ l.count ',')))
      (data_entries (unlines lines ++ last)) := by
  induction lines with
  | nil =>
    obtain ⟨hnl, hnul, hfit, hk⟩ := h last (by simp)
    obtain ⟨k1, k2, -⟩ := tokenize_entry_by_kind last [] hnl hnul (Or.inl rfl) hk
    rw [List.append_nil] at k1 k2
    simp only [unlines, List.nil_append]
    by_cases hl : last = []
    · subst hl
      simp [data_entries_nil]
    · rw [data_entries_last last hl hnl hfit]
      by_cases h3 : 3 ≤ last.count ','
      · obtain ⟨e, he, hle⟩ := k1 h3
        simp [h3, he, hle]
      · simp [h3, k2 h3]
  | cons l lines ih =>
    obtain ⟨hnl, hnul, hfit, hk⟩ := h l (by simp)
    obtain ⟨tl, htl, e⟩ := data_entries_line_tail l (unlines lines ++ last) hnl hfit
    obtain ⟨k1, k2, -⟩ := tokenize_entry_by_kind l tl hnl hnul htl hk
    have ih2 := ih (fun x hx => h x (by
      rw [List.cons_append]
      exact List.mem_cons_of_mem _ hx))
    simp only [unlines, List.cons_append, List.append_assoc]
    rw [e]
    by_cases h3 : 3 ≤ l.count ','
    · obtain ⟨e, he, hle⟩ := k1 h3
      rw [he, List.filter_cons_of_pos (by simpa using h3)]
      exact List.Forall₂.cons hle ih2
    · rw [k2 h3, List.filter_cons_of_neg (by simpa using h3)]
      exact ih2

/-- C8, amended. For a text made of the exact header line and data lines that
hold no NUL, each fit the 1024-byte line buffer (at most 1023 characters)
and are well-formed (four non-empty fields) or short (fewer than three
commas), the last of them possibly without newline, `load_logs_from_csv`
returns success whatever the vector held before, and the vector then holds,
in file order, exactly the entries of the well-formed lines, which are the
lines with three commas or more. -/
theorem load_lenient (S : List log_entry_t) (lines : List (List Char)) (last : List Char)
    (h : ∀ l ∈ lines ++ [last], '\n' ∉ l ∧ '\x00' ∉ l ∧ l.length ≤ 1023 ∧
      (well_formed_line l ∨ short_line l)) :
    ∃ recs : List log_entry_t,
      load_logs_from_csv (some (csv_header ++ '\n' :: (unlines lines ++ last))) S =
        some (true, recs) ∧
      List.Forall₂ line_entry
        ((lines ++ [last]).filter (fun l => decide (3 ≤ l.count ','))) recs ∧
      (∀ l ∈ lines ++ [last], well_formed_line l ↔ 3 ≤ l.count ',') := by
  refine ⟨_, load_after_header _ S, data_entries_lines lines last h, ?_⟩
  intro l hl
  obtain ⟨hnl, hnul, -, hk⟩ := h l hl
  exact (tokenize_entry_by_kind l [] hnl hnul (Or.inl rfl) hk).2.2

theorem well_formed_of_fields {t s o c : List Char} (ht : t ≠ []) (hs : s ≠ []) (ho : o ≠ [])
    (hc : c ≠ []) (ht2 : ',' ∉ t) (hs2 : ',' ∉ s) (ho2 : ',' ∉ o) :
    well_formed_line (join_fields t s o c) :=
  ⟨_, t, s, o, c, ht, hs, ho, hc, ht2, hs2, ho2, rfl, rfl⟩

/-- Counterexample to C8 as stated: two well-formed data lines that fit the
line buffer, the second with the two-character severity field `W` NUL; the
load returns success with one entry only, since the buffer of the second
line is read as a C string that ends at the NUL. -/
theorem load_lenient_nul_line :
    (∀ l ∈ ["1,INFO,a,x".toList, join_fields "2".toList ['W', '\x00'] "b".toList "y".toList],
      '\n' ∉ l ∧ l.length ≤ 1023 ∧ well_formed_line l) ∧
    load_logs_from_csv (some (csv_header ++ '\n' ::
      unlines ["1,INFO,a,x".toList,
        join_fields "2".toList ['W', '\x00'] "b".toList "y".toList]))
      [] = some (true, [⟨1, INFO, "a".toList, "x".toList⟩]) := by
  refine ⟨?_, by decide⟩
  intro l hl
  simp only [List.mem_cons, List.mem_singleton, List.not_mem_nil, or_false] at hl
  rcases hl with rfl | rfl
  · exact ⟨by decide, by decide, well_formed_of_fields
      (t := "1".toList) (s := "INFO".toList) (o := "a".toList) (c := "x".toList)
      (by decide) (by decide) (by decide) (by decide) (by decide) (by decide) (by decide)⟩
  · exact ⟨by decide, by decide, well_formed_of_fields
      (by decide) (by decide) (by decide) (by decide) (by decide) (by decide) (by decide)⟩

/-- Witness of C8, amended: two well-formed lines around a short one, loaded over a
vector that held one entry. -/
theorem load_lenient_witness :
    ∃ recs : List log_entry_t,
      load_logs_from_csv (some (csv_header ++ '\n' ::
        (unlines ["1,INFO,a,x".toList, "oops".toList, "2,WARN,b,y".toList] ++ [])))
        [⟨9, CRIT, "old".toList, "entry".toList⟩] = some (true, recs) ∧
      List.Forall₂ line_entry
        ((["1,INFO,a,x".toList, "oops".toList, "2,WARN,b,y".toList] ++ [[]]).filter
          (fun l => decide (3 ≤ l.count ','))) recs ∧
      (∀ l ∈ ["1,INFO,a,x".toList, "oops".toList, "2,WARN,b,y".toList] ++ [[]],
        well_formed_line l ↔ 3 ≤ l.count ',') :=
  load_lenient [⟨9, CRIT, "old".toList, "entry".toList⟩]
    ["1,INFO,a,x".toList, "oops".toList, "2,WARN,b,y".toList] [] (by
      intro l hl
      simp only [List.cons_append, List.nil_append, List.mem_cons, List.mem_singleton,
        List.not_mem_nil, or_false] at hl
      rcases hl with rfl | rfl | rfl | rfl
      · exact ⟨by decide, by decide, by decide, Or.inl (well_formed_of_fields
          (t := "1".toList) (s := "INFO".toList) (o := "a".toList) (c := "x".toList)
          (by decide) (by decide) (by decide) (by decide) (by decide) (by decide)
          (by decide))⟩
      · exact ⟨by decide, by decide, by decide, Or.inr (by decide)⟩
      · exact ⟨by decide, by decide, by decide, Or.inl (well_formed_of_fields
          (t := "2".toList) (s := "WARN".toList) (o := "b".toList) (c := "y".toList)
          (by decide) (by decide) (by decide) (by decide) (by decide) (by decide)
          (by decide))⟩
      · exact ⟨by decide, by decide, by decide, Or.inr (by decide)⟩)

/-! ## CSV round trip -/

theorem parse_severity_to_string (s : log_severity_e) :
    parse_severity (severity_to_string s) = s := by
  cases s <;> decide

theorem data_entries_csv_lines (R : List log_entry_t) (h : ∀ r ∈ R, csv_safe r) :
    data_entries (R.map csv_line).flatten = R := by
  induction R with
  | nil => rfl
  | cons r R ih =>
    obtain ⟨hts, ⟨ho1, ho2, ho3, ho4⟩, ⟨hc1, _, hc3, hc4⟩, hq, hfit⟩ := h r (by simp)
    obtain ⟨hd1, hd2, _⟩ := fmt_llu_spec hts
    obtain ⟨hs1, hs2, hs3, hs4⟩ := severity_to_string_facts r.severity
    have hline : csv_line r =
        join_fields (fmt_llu r.timestamp) (severity_to_string r.severity) r.origin r.content
          ++ ['\n'] := by
      simp [csv_line, join_fields, c_str_eq_self ho4, c_str_eq_self hc4]
    have hnl : '\n' ∉ join_fields (fmt_llu r.timestamp) (severity_to_string r.severity)
        r.origin r.content := by
      have := not_mem_of_digits hd2 (d := '\n') (by decide)
      simp [join_fields, this, hs3, ho3, hc3]
    have hnul : '\x00' ∉ join_fields (fmt_llu r.timestamp) (severity_to_string r.severity)
        r.origin r.content := by
      have := not_mem_of_digits hd2 (d := '\x00') (by decide)
      simp [join_fields, this, hs4, ho4, hc4]
    have hlen : (join_fields (fmt_llu r.timestamp) (severity_to_string r.severity)
        r.origin r.content).length ≤ 1023 := by
      rw [hline, List.length_append] at hfit
      simpa using hfit
    obtain ⟨tl, htl, e⟩ := data_entries_line_tail _ (R.map csv_line).flatten hnl hlen
    rw [List.map_cons, List.flatten_cons, hline, List.append_assoc, List.singleton_append, e,
      tokenize_entry_line tl hd1 hs1 ho1 hc1 (not_mem_of_digits hd2 (by decide)) hs2 ho2
        hnl hnul htl,
      strtoui64_fmt_llu hts, parse_severity_to_string, strip_quotes_eq_self hq,
      ih (fun x hx => h x (List.mem_cons_of_mem _ hx))]
    rfl

/-- Counterexample to C1 as stated: one entry with an empty origin, whose
content holds neither comma nor newline, is saved and loaded back; the load
succeeds and yields no entry. -/
theorem csv_round_trip_empty_origin :
    (∀ r ∈ [(⟨1, INFO, [], "x".toList⟩ : log_entry_t)], ',' ∉ r.content ∧ '\n' ∉ r.content) ∧
    (save_logs_to_csv true [⟨1, INFO, [], "x".toList⟩]).2 =
      "Timestamp,Severity,Origin,Content\n1,INFO,,x\n".toList ∧
    load_logs_from_csv (some (save_logs_to_csv true [⟨1, INFO, [], "x".toList⟩]).2) [] =
      some (true, []) ∧
    load_logs_from_csv (some (save_logs_to_csv true [⟨1, INFO, [], "x".toList⟩]).2) [] ≠
      some (true, [⟨1, INFO, [], "x".toList⟩]) := by
  decide

/-- C1, amended. For entries with a `u64` timestamp, a non-empty origin without
comma, newline or NUL, and a non-empty content without comma, newline or NUL
that is not wrapped in double quotes, each giving a line that fits the line
buffer of the reader, `save_logs_to_csv` succeeds and `load_logs_from_csv`
on the text it wrote succeeds and yields exactly the same entries, in the
same order, whatever the destination held before. -/
theorem csv_round_trip (S R : List log_entry_t) (h : ∀ r ∈ R, csv_safe r) :
    (save_logs_to_csv true R).1 = true ∧
    load_logs_from_csv (some (save_logs_to_csv true R).2) S = some (true, R) := by
  refine ⟨rfl, ?_⟩
  have hs : (save_logs_to_csv true R).2 = csv_header ++ '\n' :: (R.map csv_line).flatten := by
    simp [save_logs_to_csv]
  rw [hs, load_after_header, data_entries_csv_lines R h]

/-- Witness of C1, amended: two entries saved and loaded back over a vector
that held another entry. -/
theorem csv_round_trip_witness :
    (save_logs_to_csv true [⟨1700000000, WARN, "engine".toList, "Heap low".toList⟩,
      ⟨0, TRCE, "a b".toList, "\"quoted\" inside".toList⟩]).1 = true ∧
    load_logs_from_csv (some (save_logs_to_csv true
      [⟨1700000000, WARN, "engine".toList, "Heap low".toList⟩,
       ⟨0, TRCE, "a b".toList, "\"quoted\" inside".toList⟩]).2)
      [⟨5, INFO, "x".toList, "y".toList⟩] =
      some (true, [⟨1700000000, WARN, "engine".toList, "Heap low".toList⟩,
        ⟨0, TRCE, "a b".toList, "\"quoted\" inside".toList⟩]) :=
  csv_round_trip [⟨5, INFO, "x".toList, "y".toList⟩]
    [⟨1700000000, WARN, "engine".toList, "Heap low".toList⟩,
     ⟨0, TRCE, "a b".toList, "\"quoted\" inside".toList⟩] (by decide)


/-! ### The header line -/

theorem split_at_first (d : Char) (l : List Char) (h : d ∈ l) :
    ∃ a b, l = a ++ d :: b ∧ d ∉ a := by
  induction l with
  | nil => simp at h
  | cons x l ih =>
    by_cases hx : x = d
    · exact ⟨[], l, by simp [hx], by simp⟩
    · have hl : d ∈ l := by
        rcases List.mem_cons.1 h with h | h
        · exact absurd h.symm hx
        · exact h
      obtain ⟨a, b, e, ha⟩ := ih hl
      refine ⟨x :: a, b, by simp [e], ?_⟩
      simp only [List.mem_cons, not_or]
      exact ⟨fun h => hx h.symm, ha⟩

theorem split_run (d : Char) (l : List Char) :
    ∃ k m, l = k ++ m ∧ (∀ x ∈ k, x = d) ∧ m.head? ≠ some d := by
  induction l with
  | nil => exact ⟨[], [], rfl, by simp, by simp⟩
  | cons x l ih =>
    by_cases hx : x = d
    · obtain ⟨k, m, e, hk, hm⟩ := ih
      refine ⟨x :: k, m, by simp [e], ?_, hm⟩
      intro y hy
      rcases List.mem_cons.1 hy with h | h
      · rw [h, hx]
      · exact hk y h
    · exact ⟨[], x :: l, rfl, by simp, by simpa using hx⟩

theorem strtok_skip (d : Char) (k s : List Char) (hk : ∀ x ∈ k, x = d) :
    strtok (k ++ s) [d] = strtok s [d] := by
  have h : ∀ a ∈ k, (List.elem a [d]) = true := by
    intro a ha
    simp [hk a ha]
  unfold strtok
  rw [List.dropWhile_append_of_pos h]

/-- One comma-delimited token of a buffer that ends with its only newline. -/
theorem strtok_comma_step (M W : List Char) (hW : '\n' ∉ W) :
    ∃ tok r, strtok (M ++ ['\n']) [','] = (some tok, r) ∧
      (tok = W → ∃ k M', commas k ∧ M = k ++ (W ++ ',' :: M') ∧ r = M' ++ ['\n']) := by
  obtain ⟨k, M0, e, hk, hM0⟩ := split_run ',' M
  subst e
  rw [List.append_assoc, strtok_skip ',' k _ hk]
  by_cases hc : ',' ∈ M0
  · obtain ⟨a, b, e2, ha⟩ := split_at_first ',' M0 hc
    subst e2
    have hane : a ≠ [] := by
      rintro rfl
      simp at hM0
    refine ⟨a, b ++ ['\n'], ?_, ?_⟩
    · rw [List.append_assoc, List.cons_append, strtok_token ',' _ hane ha]
    · intro h
      subst h
      exact ⟨k, b, hk, rfl, rfl⟩
  · have hne : M0 ++ ['\n'] ≠ [] := by simp
    have hnc : ',' ∉ M0 ++ ['\n'] := by
      simp only [List.mem_append, List.mem_singleton, not_or]
      exact ⟨hc, by decide⟩
    refine ⟨M0 ++ ['\n'], [], strtok_last ',' hne hnc, ?_⟩
    intro h
    exfalso
    apply hW
    rw [← h]
    simp

theorem strtok_newline_last (M : List Char) (hM : '\n' ∉ M) :
    strtok (M ++ ['\n']) ['\n'] = if M = [] then (none, []) else (some M, []) := by
  by_cases h : M = []
  · subst h
    rfl
  · rw [if_neg h, strtok_token '\n' [] h hM]

theorem strcmp_self_not_ne (a : List Char) : ¬ (strcmp a a ≠ 0) :=
  not_not.2 ((strcmp_eq_zero_iff a a).2 rfl)

/-- The three outcomes of the header check on a newline-terminated line. -/
theorem check_header_cases (L : List Char) (hnl : '\n' ∉ L) :
    (check_header (L ++ ['\n']) = some true ∧ header_like L) ∨
    (check_header (L ++ ['\n']) = none ∧ header_cut L) ∨
    check_header (L ++ ['\n']) = some false := by
  obtain ⟨tok1, r1, e1, h1⟩ := strtok_comma_step L "Timestamp".toList (by decide)
  unfold check_header
  rw [e1]
  simp only
  by_cases ht1 : tok1 = "Timestamp".toList
  swap
  · right; right
    rw [if_pos (fun h => ht1 ((strcmp_eq_zero_iff _ _).1 h))]
  obtain ⟨k1, M1, hk1, rfl, rfl⟩ := h1 ht1
  subst ht1
  rw [if_neg (strcmp_self_not_ne _)]
  have hnl1 : '\n' ∉ M1 := fun h => hnl (by simp [h])
  obtain ⟨tok2, r2, e2, h2⟩ := strtok_comma_step M1 "Severity".toList (by decide)
  rw [e2]
  simp only
  by_cases ht2 : tok2 = "Severity".toList
  swap
  · right; right
    rw [if_pos (fun h => ht2 ((strcmp_eq_zero_iff _ _).1 h))]
  obtain ⟨k2, M2, hk2, rfl, rfl⟩ := h2 ht2
  subst ht2
  rw [if_neg (strcmp_self_not_ne _)]
  have hnl2 : '\n' ∉ M2 := fun h => hnl1 (by simp [h])
  obtain ⟨tok3, r3, e3, h3⟩ := strtok_comma_step M2 "Origin".toList (by decide)
  rw [e3]
  simp only
  by_cases ht3 : tok3 = "Origin".toList
  swap
  · right; right
    rw [if_pos (fun h => ht3 ((strcmp_eq_zero_iff _ _).1 h))]
  obtain ⟨k3, M3, hk3, rfl, rfl⟩ := h3 ht3
  subst ht3
  rw [if_neg (strcmp_self_not_ne _)]
  have hnl3 : '\n' ∉ M3 := fun h => hnl2 (by simp [h])
  rw [strtok_newline_last M3 hnl3]
  by_cases hM3 : M3 = []
  · subst hM3
    right; left
    exact ⟨by simp, k1, k2, k3, hk1, hk2, hk3, rfl⟩
  · rw [if_neg hM3]
    simp only
    by_cases ht4 : M3 = "Content".toList
    · subst ht4
      left
      exact ⟨by rw [if_neg (strcmp_self_not_ne _)], k1, k2, k3, hk1, hk2, hk3, rfl⟩
    · right; right
      rw [if_pos (fun h => ht4 ((strcmp_eq_zero_iff _ _).1 h))]

theorem check_header_of_like (L : List Char) (h : header_like L) :
    check_header (L ++ ['\n']) = some true := by
  obtain ⟨k1, k2, k3, hk1, hk2, hk3, rfl⟩ := h
  have e : (k1 ++ ("Timestamp".toList ++ ',' :: (k2 ++ ("Severity".toList ++ ',' ::
      (k3 ++ ("Origin".toList ++ ',' :: "Content".toList)))))) ++ ['\n'] =
      k1 ++ ("Timestamp".toList ++ ',' :: (k2 ++ ("Severity".toList ++ ',' ::
      (k3 ++ ("Origin".toList ++ ',' :: ("Content".toList ++ ['\n'])))))) := by
    simp only [List.append_assoc, List.cons_append]
  rw [e]
  unfold check_header
  rw [strtok_skip ',' k1 _ hk1, strtok_token ',' _ (by decide) (by decide)]
  simp only
  rw [if_neg (strcmp_self_not_ne _), strtok_skip ',' k2 _ hk2,
    strtok_token ',' _ (by decide) (by decide)]
  simp only
  rw [if_neg (strcmp_self_not_ne _), strtok_skip ',' k3 _ hk3,
    strtok_token ',' _ (by decide) (by decide)]
  simp only
  rw [if_neg (strcmp_self_not_ne _), strtok_token '\n' [] (by decide) (by decide)]
  simp only
  rw [if_neg (strcmp_self_not_ne _)]

theorem check_header_of_cut (L : List Char) (h : header_cut L) :
    check_header (L ++ ['\n']) = none := by
  obtain ⟨k1, k2, k3, hk1, hk2, hk3, rfl⟩ := h
  have e : (k1 ++ ("Timestamp".toList ++ ',' :: (k2 ++ ("Severity".toList ++ ',' ::
      (k3 ++ ("Origin".toList ++ [','])))))) ++ ['\n'] =
      k1 ++ ("Timestamp".toList ++ ',' :: (k2 ++ ("Severity".toList ++ ',' ::
      (k3 ++ ("Origin".toList ++ ',' :: ['\n']))))) := by
    simp only [List.append_assoc, List.cons_append, List.nil_append]
  rw [e]
  unfold check_header
  rw [strtok_skip ',' k1 _ hk1, strtok_token ',' _ (by decide) (by decide)]
  simp only
  rw [if_neg (strcmp_self_not_ne _), strtok_skip ',' k2 _ hk2,
    strtok_token ',' _ (by decide) (by decide)]
  simp only
  rw [if_neg (strcmp_self_not_ne _), strtok_skip ',' k3 _ hk3,
    strtok_token ',' _ (by decide) (by decide)]
  simp only
  rw [if_neg (strcmp_self_not_ne _)]
  rfl

theorem check_header_true_iff (L : List Char) (hnl : '\n' ∉ L) :
    check_header (L ++ ['\n']) = some true ↔ header_like L := by
  constructor
  · intro h
    rcases check_header_cases L hnl with ⟨_, h2⟩ | ⟨h1, _⟩ | h1
    · exact h2
    · rw [h] at h1; simp at h1
    · rw [h] at h1; simp at h1
  · exact check_header_of_like L

theorem check_header_false (L : List Char) (hnl : '\n' ∉ L) (h1 : ¬ header_like L)
    (h2 : ¬ header_cut L) : check_header (L ++ ['\n']) = some false := by
  rcases check_header_cases L hnl with ⟨_, h⟩ | ⟨_, h⟩ | h
  · exact absurd h h1
  · exact absurd h h2
  · exact h

/-- The call `load_logs_from_csv` on a text whose first line ends with a newline and fits
the line buffer: the header check decides. -/
theorem load_first_line (S : List log_entry_t) (L rest : List Char) (hnl : '\n' ∉ L)
    (hnul : '\x00' ∉ L) (hfit : L.length + 1 ≤ 1023) :
    load_logs_from_csv (some (L ++ '\n' :: rest)) S =
      match check_header (L ++ ['\n']) with
      | none => none
      | some false => some (false, [])
      | some true => some (true, data_entries rest) := by
  obtain ⟨c, f, hcf⟩ : ∃ c f, L ++ '\n' :: rest = c :: f := by
    cases L with
    | nil => exact ⟨_, _, rfl⟩
    | cons a l => exact ⟨_, _, rfl⟩
  have hf : fgets 1024 (L ++ '\n' :: rest) = some (L ++ ['\n'], rest) := by
    rw [hcf, fgets_cons, ← hcf, fgets_read_line L rest hnl 1023 (by omega)]
  have hc : c_str (L ++ ['\n']) = L ++ ['\n'] := by
    apply c_str_eq_self
    simp only [List.mem_append, List.mem_singleton, not_or]
    exact ⟨hnul, by decide⟩
  have hlen : rest.length < (L ++ '\n' :: rest).length := by
    rw [List.length_append, List.length_cons]
    omega
  unfold load_logs_from_csv
  simp only
  rw [load_loop, hf]
  simp only [if_true, hc]
  cases hh : check_header (L ++ ['\n']) with
  | none => rfl
  | some b =>
    cases b with
    | false => rfl
    | true =>
      simp only
      rw [load_loop_data, entries_loop_eq hlen]
      rfl

/-- A failed load leaves nothing in the vector. -/
theorem load_failure_empty (S : List log_entry_t) (f : List Char) (logs : List log_entry_t)
    (h : load_logs_from_csv (some f) S = some (false, logs)) : logs = [] := by
  unfold load_logs_from_csv at h
  simp only at h
  rw [load_loop] at h
  cases hf : fgets 1024 f with
  | none =>
    rw [hf] at h
    simp at h
  | some lr =>
    obtain ⟨line, rest⟩ := lr
    rw [hf] at h
    simp only [if_true] at h
    cases hh : check_header (c_str line) with
    | none => rw [hh] at h; simp at h
    | some b =>
      cases b with
      | false =>
        rw [hh] at h
        simp only [Option.some.injEq, Prod.mk.injEq, true_and] at h
        rw [← h]
        rfl
      | true =>
        rw [hh] at h
        simp only at h
        rw [load_loop_data] at h
        simp at h

theorem load_button_eq (f : List Char) (S : List log_entry_t) :
    load_button (some f) S = (load_logs_from_csv (some f) S).map Prod.snd := rfl

/-! ## A failed load -/

/-- Counterexample to C2 as stated: the misspelled header of concrete scenario
4 is loaded over a vector holding one entry; the load reports failure and
the vector is empty afterwards, not the vector as it was. -/
theorem load_bad_header_clears_store :
    load_logs_from_csv (some "Time,Severity,Origin,Content\n".toList)
      [⟨1, INFO, "a".toList, "x".toList⟩] = some (false, []) ∧
    load_logs_from_csv (some "Time,Severity,Origin,Content\n".toList)
      [⟨1, INFO, "a".toList, "x".toList⟩] ≠ some (false, [⟨1, INFO, "a".toList, "x".toList⟩]) ∧
    load_button (some "Time,Severity,Origin,Content\n".toList)
      [⟨1, INFO, "a".toList, "x".toList⟩] = some [] := by
  decide

/-- C2, amended. Whenever `load_logs_from_csv` reports failure on a text, the
destination vector is empty afterwards, whatever it held before, and so is
`log_messages` after the Load button; this is the outcome for every text
whose first line ends with a newline, fits the line buffer and is neither
the header up to empty fields nor that header cut behind `Origin,`. -/
theorem load_failure_clears (S : List log_entry_t) (f : List Char) :
    (∀ logs : List log_entry_t, load_logs_from_csv (some f) S = some (false, logs) →
      logs = [] ∧ load_button (some f) S = some []) ∧
    (∀ L rest : List Char, f = L ++ '\n' :: rest → '\n' ∉ L → '\x00' ∉ L →
      L.length + 1 ≤ 1023 → ¬ header_like L → ¬ header_cut L →
      load_logs_from_csv (some f) S = some (false, []) ∧ load_button (some f) S = some []) := by
  constructor
  · intro logs h
    have hl := load_failure_empty S f logs h
    subst hl
    exact ⟨rfl, by rw [load_button_eq, h]; rfl⟩
  · intro L rest hf hnl hnul hfit h1 h2
    subst hf
    have h := load_first_line S L rest hnl hnul hfit
    rw [check_header_false L hnl h1 h2] at h
    exact ⟨h, by rw [load_button_eq, h]; rfl⟩

/-- Witness of C2, amended: the misspelled header over a vector of one entry. -/
theorem load_failure_clears_witness :
    ([] : List log_entry_t) = [] ∧
    load_button (some ("Time,Severity,Origin,Content".toList ++ '\n' :: "1,INFO,a,x\n".toList))
      [⟨1, INFO, "a".toList, "x".toList⟩] = some [] :=
  (load_failure_clears [⟨1, INFO, "a".toList, "x".toList⟩]
    ("Time,Severity,Origin,Content".toList ++ '\n' :: "1,INFO,a,x\n".toList)).1 []
    (by decide)

/-! ## Header validation -/

/-- Counterexample to C3 as stated: a first line with an empty second column
is not the header, yet the load returns success and reads the data line. -/
theorem load_header_double_comma :
    "Timestamp,,Severity,Origin,Content".toList ≠ csv_header ∧
    load_logs_from_csv (some "Timestamp,,Severity,Origin,Content\n1,INFO,a,x\n".toList) [] =
      some (true, [⟨1, INFO, "a".toList, "x".toList⟩]) := by
  decide

/-- A file without any line: the loop body never runs and the function
returns success with an empty vector. -/
theorem load_empty_file (S : List log_entry_t) :
    load_logs_from_csv (some []) S = some (true, []) := rfl

/-- A first line that ends behind `Origin,`: the fourth `strtok` yields a null
pointer, which the header branch hands to `strcmp`. -/
theorem load_header_without_content (S : List log_entry_t) :
    load_logs_from_csv (some "Timestamp,Severity,Origin,\n".toList) S = none := by
  have h : load_logs_from_csv (some "Timestamp,Severity,Origin,\n".toList) [] = none := by
    decide
  exact h

/-- C3, amended. For a text whose first line `L` ends with a newline, holds no
NUL and fits the line buffer: `load_logs_from_csv` returns success exactly
when `L` is the header up to empty fields (runs of commas before the first
three names); it returns failure with zero entries when `L` is neither that
nor the same cut behind `Origin,`; and for `L` exactly the header it returns
success with the entries of the data lines. -/
theorem load_header_validation (S : List log_entry_t) (L rest : List Char)
    (hnl : '\n' ∉ L) (hnul : '\x00' ∉ L) (hfit : L.length + 1 ≤ 1023) :
    ((∃ logs, load_logs_from_csv (some (L ++ '\n' :: rest)) S = some (true, logs)) ↔
      header_like L) ∧
    (¬ header_like L → ¬ header_cut L →
      load_logs_from_csv (some (L ++ '\n' :: rest)) S = some (false, [])) ∧
    (L = csv_header →
      load_logs_from_csv (some (L ++ '\n' :: rest)) S = some (true, data_entries rest)) := by
  have h := load_first_line S L rest hnl hnul hfit
  refine ⟨⟨?_, ?_⟩, ?_, ?_⟩
  · rintro ⟨logs, hl⟩
    rw [← check_header_true_iff L hnl]
    rw [hl] at h
    cases hh : check_header (L ++ ['\n']) with
    | none => rw [hh] at h; simp at h
    | some b =>
      cases b with
      | false => rw [hh] at h; simp at h
      | true => rfl
  · intro hlike
    rw [check_header_of_like L hlike] at h
    exact ⟨_, h⟩
  · intro h1 h2
    rw [check_header_false L hnl h1 h2] at h
    exact h
  · intro hL
    subst hL
    exact load_after_header rest S

/-- Witness of C3, amended: the misspelled header of concrete scenario 4 gives
failure and zero entries. -/
theorem load_header_validation_witness :
    load_logs_from_csv
      (some ("Time,Severity,Origin,Content".toList ++ '\n' :: "1,INFO,a,x\n".toList))
      [⟨1, INFO, "a".toList, "x".toList⟩] = some (false, []) :=
  (load_header_validation [⟨1, INFO, "a".toList, "x".toList⟩]
    "Time,Severity,Origin,Content".toList "1,INFO,a,x\n".toList
    (by decide) (by decide) (by decide)).2.1
    (fun h => absurd (check_header_of_like _ h) (by decide))
    (fun h => absurd (check_header_of_cut _ h) (by decide))


/-! ## The text written by `save_logs_to_csv` -/

theorem digitChar_eq (m : Nat) (h : m < 10) : Nat.digitChar m = Char.ofNat (48 + m) := by
  interval_cases m <;> rfl

theorem toDigitsCore_eq_dec_digits (fuel1 : Nat) : ∀ (fuel2 n : Nat) (acc : List Char),
    n < fuel1 → n < 10 ^ (fuel2 + 1) →
    Nat.toDigitsCore 10 fuel1 n acc = dec_digits (fuel2 + 1) n ++ acc := by
  induction fuel1 with
  | zero => intro fuel2 n acc h; simp at h
  | succ fuel1 ih =>
    intro fuel2 n acc h1 h2
    have hd := digitChar_eq (n % 10) (Nat.mod_lt _ (by decide))
    rw [Nat.toDigitsCore, dec_digits]
    by_cases h0 : n / 10 = 0
    · simp [h0, hd]
    · cases fuel2 with
      | zero => omega
      | succ fuel2 =>
        have hlt : n / 10 < 10 ^ (fuel2 + 1) := by
          rw [Nat.div_lt_iff_lt_mul (by decide)]
          rw [pow_succ] at h2
          exact h2
        simp only [h0, if_false]
        rw [ih fuel2 (n / 10) _ (by omega) hlt, hd]
        simp

/-- The conversion `%llu` writes the usual decimal numeral of a `u64`. -/
theorem fmt_llu_eq_repr {n : Nat} (hn : n < 2 ^ 64) : fmt_llu n = (Nat.repr n).toList := by
  unfold fmt_llu
  rw [Nat.mod_eq_of_lt hn]
  have h := toDigitsCore_eq_dec_digits (n + 1) 19 n [] (by omega) (lt_trans hn (by norm_num))
  rw [List.append_nil] at h
  show dec_digits 20 n = (Nat.toDigitsCore 10 (n + 1) n []).asString.data
  rw [h]
  rfl

theorem csv_line_c_strings (r : log_entry_t) (ht : r.timestamp < 2 ^ 64)
    (hr : entry_is_c_strings r) :
    csv_line r = join_fields (Nat.repr r.timestamp).toList (severity_to_string r.severity)
      r.origin r.content ++ ['\n'] := by
  obtain ⟨ho, hc⟩ := hr
  simp [csv_line, join_fields, c_str_eq_self ho, c_str_eq_self hc, fmt_llu_eq_repr ht]

/-- C11. For entries with `u64` timestamps and strings built from C strings, the
text written by `save_logs_to_csv` is the header line followed, entry by
entry in the order of the vector, by the line made of the decimal timestamp,
the severity name, the origin and the content, joined by commas and ended by
a newline; origin and content stand in it as they are, unquoted. -/
theorem save_logs_to_csv_format (R : List log_entry_t)
    (hR : ∀ r ∈ R, r.timestamp < 2 ^ 64 ∧ entry_is_c_strings r) :
    save_logs_to_csv true R =
      (true, "Timestamp,Severity,Origin,Content\n".toList ++
        (R.map (fun r => join_fields (Nat.repr r.timestamp).toList
          (severity_to_string r.severity) r.origin r.content ++ ['\n'])).flatten) := by
  have hmap : R.map csv_line = R.map (fun r => join_fields (Nat.repr r.timestamp).toList
      (severity_to_string r.severity) r.origin r.content ++ ['\n']) := by
    apply List.map_congr_left
    intro r hr
    exact csv_line_c_strings r (hR r hr).1 (hR r hr).2
  have hhead : csv_header ++ ['\n'] = "Timestamp,Severity,Origin,Content\n".toList := by
    decide
  unfold save_logs_to_csv
  rw [if_pos rfl, hmap, hhead]

/-- Witness of C11: two entries, the second with a comma and quotes in its
content. -/
theorem save_logs_to_csv_format_witness :
    save_logs_to_csv true [⟨1700000000, WARN, "engine".toList, "Heap low".toList⟩,
      ⟨0, TRCE, "".toList, "say \"a,b\"".toList⟩] =
      (true, ("Timestamp,Severity,Origin,Content\n1700000000,WARN,engine,Heap low\n" ++
        "0,TRCE,,say \"a,b\"\n").toList) :=
  (save_logs_to_csv_format [⟨1700000000, WARN, "engine".toList, "Heap low".toList⟩,
    ⟨0, TRCE, "".toList, "say \"a,b\"".toList⟩] (by decide)).trans (by decide)

/-! ## Rows of the log table -/

/-- The loop of `show_log_window` reaches every index below the size of
`filtered_logs`, and `logs[i]` is then inside the vector: the row shows the
date of `logs[i]` beside the other fields of `filtered_logs[i]`. -/
theorem show_log_window_row_some (date_text : Int → Option (List Char))
    (filter_buf : List Char) (logs : List log_entry_t) (i : Nat)
    (h : i < (filtered_logs filter_buf logs).length) :
    ∃ p l, (filtered_logs filter_buf logs)[i]? = some p ∧ logs[i]? = some l ∧
      show_log_window_row date_text filter_buf logs i =
        row_of_entry date_text ⟨l.timestamp, p.severity, p.origin, p.content⟩ := by
  have hsub : List.Sublist (filtered_logs filter_buf logs) logs := by
    unfold filtered_logs
    split
    · exact List.filter_sublist _
    · exact List.Sublist.refl _
  have hlen : i < logs.length := lt_of_lt_of_le h hsub.length_le
  refine ⟨(filtered_logs filter_buf logs)[i], logs[i], List.getElem?_eq_getElem h,
    List.getElem?_eq_getElem hlen, ?_⟩
  unfold show_log_window_row row_of_entry
  rw [List.getElem?_eq_getElem h, List.getElem?_eq_getElem hlen]

/-- With an empty filter every row shows one entry, the entry of its index. -/
theorem show_log_window_row_unfiltered (date_text : Int → Option (List Char))
    (filter_buf : List Char) (logs : List log_entry_t)
    (i : Nat) (p : log_entry_t) (hf : c_str filter_buf = [])
    (h : (filtered_logs filter_buf logs)[i]? = some p) :
    show_log_window_row date_text filter_buf logs i = row_of_entry date_text p := by
  have hl : filtered_logs filter_buf logs = logs := by
    simp [filtered_logs, hf]
  unfold show_log_window_row row_of_entry
  rw [h]
  rw [hl] at h
  rw [h]

theorem to_time_t_small : to_time_t 1 = 1 ∧ to_time_t 2 = 2 := by decide

/-- C13. The claim fails on the code at the entries `(1, INFO, a, x)` and
`(2, WARN, b, y)` filtered by `WARN`, whatever the library makes of a time:
the filter result holds the second entry only, and row 0 shows its severity,
origin and content together with the date of timestamp 1, the timestamp of
the first entry, since the first column is drawn from `logs[i]` and not
through `filtered_logs[i]`; when the times 1 and 2 are written as different
texts, the row drawn is not the row of the filtered entry. -/
theorem show_log_window_row_mixes_entries (date_text : Int → Option (List Char)) :
    filtered_logs "WARN".toList
      [⟨1, INFO, "a".toList, "x".toList⟩, ⟨2, WARN, "b".toList, "y".toList⟩] =
      [⟨2, WARN, "b".toList, "y".toList⟩] ∧
    show_log_window_row date_text "WARN".toList
      [⟨1, INFO, "a".toList, "x".toList⟩, ⟨2, WARN, "b".toList, "y".toList⟩] 0 =
      row_of_entry date_text ⟨1, WARN, "b".toList, "y".toList⟩ ∧
    (∀ b1 b2 : List Char, date_text 1 = some b1 → date_text 2 = some b2 → b1 ≠ b2 →
      show_log_window_row date_text "WARN".toList
        [⟨1, INFO, "a".toList, "x".toList⟩, ⟨2, WARN, "b".toList, "y".toList⟩] 0 =
        row_outcome.drawn ⟨b1, "WARN".toList, "b".toList, "y".toList⟩ ∧
      show_log_window_row date_text "WARN".toList
        [⟨1, INFO, "a".toList, "x".toList⟩, ⟨2, WARN, "b".toList, "y".toList⟩] 0 ≠
        row_of_entry date_text ⟨2, WARN, "b".toList, "y".toList⟩) := by
  have hf : filtered_logs "WARN".toList
      [⟨1, INFO, "a".toList, "x".toList⟩, ⟨2, WARN, "b".toList, "y".toList⟩] =
      [⟨2, WARN, "b".toList, "y".toList⟩] := by decide
  have hrow : show_log_window_row date_text "WARN".toList
      [⟨1, INFO, "a".toList, "x".toList⟩, ⟨2, WARN, "b".toList, "y".toList⟩] 0 =
      row_of_entry date_text ⟨1, WARN, "b".toList, "y".toList⟩ := by
    unfold show_log_window_row row_of_entry
    rw [hf]
    rfl
  refine ⟨hf, hrow, ?_⟩
  intro b1 b2 h1 h2 hne
  have e1 : row_of_entry date_text ⟨1, WARN, "b".toList, "y".toList⟩ =
      row_outcome.drawn ⟨b1, "WARN".toList, "b".toList, "y".toList⟩ := by
    unfold row_of_entry
    rw [to_time_t_small.1, h1]
    rfl
  have e2 : row_of_entry date_text ⟨2, WARN, "b".toList, "y".toList⟩ =
      row_outcome.drawn ⟨b2, "WARN".toList, "b".toList, "y".toList⟩ := by
    unfold row_of_entry
    rw [to_time_t_small.2, h2]
    rfl
  rw [hrow, e1, e2]
  refine ⟨rfl, ?_⟩
  intro h
  injection h with h
  injection h with h
  exact hne h

/-- Witness of C13: with the seconds written as a decimal numeral, row 0 shows
the date `1` beside `WARN`, `b`, `y`. -/
theorem show_log_window_row_mixes_entries_witness :
    show_log_window_row (fun tm => if 0 ≤ tm then some (Nat.repr tm.toNat).toList else none)
      "WARN".toList
      [⟨1, INFO, "a".toList, "x".toList⟩, ⟨2, WARN, "b".toList, "y".toList⟩] 0 =
      row_outcome.drawn ⟨"1".toList, "WARN".toList, "b".toList, "y".toList⟩ :=
  ((show_log_window_row_mixes_entries
    (fun tm => if 0 ≤ tm then some (Nat.repr tm.toNat).toList else none)).2.2
    "1".toList "2".toList (by decide) (by decide) (by decide)).1


/-! ## Timestamps of data lines -/

theorem strtoui64_no_leading_digit {t : List Char} (h : no_leading_digit t) :
    _strtoui64 t = 0 := by
  unfold no_leading_digit skip_space_and_sign at h
  unfold _strtoui64
  simp only [h]
  split
  · rename_i h2
    simp [digits_value] at h2
  · split
    · simp [digits_value]
    · simp [digits_value]

/-- A field that starts with a run of digits below `2 ^ 64` and goes on with
another character is read as the value of that run. -/
theorem strtoui64_leading_digits (ds rest : List Char) (hne : ds ≠ [])
    (hd : ∀ c ∈ ds, c.isDigit = true) (hr : ∀ c, rest.head? = some c → c.isDigit = false)
    (hv : digits_value ds < 2 ^ 64) : _strtoui64 (ds ++ rest) = digits_value ds := by
  cases ds with
  | nil => exact absurd rfl hne
  | cons c cs =>
    have hc := hd c (List.mem_cons_self _ _)
    have hb := isDigit_toNat hc
    have hsp : isspace c = false := by
      have h1 : c ≠ ' ' := isDigit_ne hc (by decide)
      have h2 : ¬ c.toNat ≤ 13 := by omega
      simp [isspace, h1, h2]
    have hminus : c ≠ '-' := isDigit_ne hc (by decide)
    have hplus : c ≠ '+' := isDigit_ne hc (by decide)
    have hdw : ((c :: cs) ++ rest).dropWhile isspace = (c :: cs) ++ rest := by
      simp [List.dropWhile_cons, hsp]
    have htw : ((c :: cs) ++ rest).takeWhile Char.isDigit = c :: cs := by
      rw [List.takeWhile_append_of_pos hd]
      cases rest with
      | nil => simp
      | cons x xs =>
        have := hr x rfl
        simp [List.takeWhile_cons, this]
    unfold _strtoui64
    simp only [hdw]
    simp only [List.cons_append, List.head?_cons, Option.some.injEq, hminus, hplus, or_self,
      if_false]
    rw [← List.cons_append, htw, if_neg (by omega)]

theorem load_line_entry (S : List log_entry_t) (P tail t s o c : List Char)
    (hP : P = [] ∨ P.getLast? = some '\n')
    (htail : tail = [] ∨ tail.head? = some '\n')
    (ht : t ≠ []) (hs : s ≠ []) (ho : o ≠ []) (hc : c ≠ [])
    (ht2 : ',' ∉ t) (hs2 : ',' ∉ s) (ho2 : ',' ∉ o)
    (hnl : '\n' ∉ join_fields t s o c) (hnul : '\x00' ∉ join_fields t s o c)
    (hfit : (join_fields t s o c).length ≤ 1023) :
    load_logs_from_csv (some (csv_header ++ '\n' :: (P ++ (join_fields t s o c ++ tail)))) S =
      some (true, data_entries P ++
        ⟨_strtoui64 t, parse_severity s, o, strip_quotes c⟩ :: data_entries (tail.drop 1)) := by
  have hne : join_fields t s o c ≠ [] := by
    cases t with
    | nil => exact absurd rfl ht
    | cons a t => simp [join_fields]
  rw [load_after_header, data_entries_append _ P.length P (le_refl _) hP]
  congr 2
  rcases htail with rfl | h
  · rw [List.append_nil, data_entries_last _ hne hnl hfit]
    have h := tokenize_entry_line [] ht hs ho hc ht2 hs2 ho2 hnl hnul (Or.inl rfl)
    rw [List.append_nil] at h
    rw [h]
    rfl
  · cases tail with
    | nil => simp at h
    | cons x Q =>
      simp only [List.head?_cons, Option.some.injEq] at h
      subst h
      obtain ⟨tl, htl, e⟩ := data_entries_line_tail _ Q hnl hfit
      rw [e, tokenize_entry_line tl ht hs ho hc ht2 hs2 ho2 hnl hnul htl]
      rfl

/-- Counterexample to C12 as stated: the timestamp field `12abc` is no decimal
numeral, the line has four fields, and the entry read from it has the
timestamp 12, not 0. -/
theorem load_timestamp_leading_digits :
    (∀ n : Nat, fmt_llu n ≠ "12abc".toList) ∧
    load_logs_from_csv (some "Timestamp,Severity,Origin,Content\n12abc,INFO,a,x\n".toList) [] =
      some (true, [⟨12, INFO, "a".toList, "x".toList⟩]) ∧
    load_logs_from_csv (some "Timestamp,Severity,Origin,Content\n12abc,INFO,a,x\n".toList) [] ≠
      some (true, [⟨0, INFO, "a".toList, "x".toList⟩]) := by
  refine ⟨?_, by decide, by decide⟩
  intro n h
  have hd := (dec_digits_spec 19 (n % 2 ^ 64)
    (lt_trans (Nat.mod_lt _ (by norm_num)) (by norm_num))).2.1
  have ha : 'a' ∈ fmt_llu n := by rw [h]; decide
  have := hd 'a' ha
  simp at this

/-- C12, amended. For a data line `t,s,o,c` that starts a line after a valid
header, fits the 1024-byte line buffer, has non-empty `t`, `s`, `o` without
comma and a non-empty `c`, and whose timestamp field `t`, behind leading
white space and an optional sign, does not start with a decimal digit,
`load_logs_from_csv` returns success and still yields the entry of that
line, with the timestamp 0. -/
theorem load_timestamp_default (S : List log_entry_t) (P tail t s o c : List Char)
    (hP : P = [] ∨ P.getLast? = some '\n')
    (htail : tail = [] ∨ tail.head? = some '\n')
    (ht : t ≠ []) (hs : s ≠ []) (ho : o ≠ []) (hc : c ≠ [])
    (ht2 : ',' ∉ t) (hs2 : ',' ∉ s) (ho2 : ',' ∉ o)
    (hnl : '\n' ∉ join_fields t s o c) (hnul : '\x00' ∉ join_fields t s o c)
    (hfit : (join_fields t s o c).length ≤ 1023)
    (hmal : no_leading_digit t) :
    load_logs_from_csv (some (csv_header ++ '\n' :: (P ++ (join_fields t s o c ++ tail)))) S =
      some (true, data_entries P ++
        ⟨0, parse_severity s, o, strip_quotes c⟩ :: data_entries (tail.drop 1)) := by
  have h := load_line_entry S P tail t s o c hP htail ht hs ho hc ht2 hs2 ho2 hnl hnul hfit
  rw [strtoui64_no_leading_digit hmal] at h
  exact h

/-- Witness of C12, amended: the timestamp field `n/a` between two other lines. -/
theorem load_timestamp_default_witness :
    load_logs_from_csv (some (csv_header ++ '\n' ::
      ("5,INFO,a,x\n".toList ++ (join_fields "n/a".toList "FAIL".toList "disk".toList
        "full".toList ++ "\n6,INFO,a,z\n".toList)))) [] =
      some (true, [⟨5, INFO, "a".toList, "x".toList⟩, ⟨0, FAIL, "disk".toList, "full".toList⟩,
        ⟨6, INFO, "a".toList, "z".toList⟩]) :=
  (load_timestamp_default [] "5,INFO,a,x\n".toList "\n6,INFO,a,z\n".toList "n/a".toList
    "FAIL".toList "disk".toList "full".toList (by decide) (by decide) (by decide) (by decide)
    (by decide) (by decide) (by decide) (by decide) (by decide) (by decide) (by decide)
    (by decide) (by decide)).trans (by decide)


/-! ## One buffer per line -/

theorem tokenize_entry_stages (buf : List Char) :
    tokenize_entry buf =
      match strtok buf [','] with
      | (none, _) => none
      | (some tok1, s1) => entry_stage2 tok1 s1 := by
  unfold tokenize_entry entry_stage2 entry_stage3 entry_stage4
  rfl

theorem entry_stage4_nil (a b c : List Char) : entry_stage4 a b c [] = none := rfl

theorem entry_stage3_rest_nil (a b s : List Char) (h : (strtok s [',']).2 = []) :
    entry_stage3 a b s = none := by
  unfold entry_stage3
  split
  · rfl
  · rename_i tok3 s3 h3
    rw [h3] at h
    simp only at h
    subst h
    rfl

theorem entry_stage2_rest_nil (a s : List Char) (h : (strtok s [',']).2 = []) :
    entry_stage2 a s = none := by
  unfold entry_stage2
  split
  · rfl
  · rename_i tok2 s2 h2
    rw [h2] at h
    simp only at h
    subst h
    exact entry_stage3_rest_nil _ _ [] rfl

theorem tokenize_entry_rest_nil (s : List Char) (h : (strtok s [',']).2 = []) :
    tokenize_entry s = none := by
  rw [tokenize_entry_stages]
  split
  · rfl
  · rename_i tok1 s1 h1
    rw [h1] at h
    simp only at h
    subst h
    exact entry_stage2_rest_nil _ [] rfl

/-- A comma-delimited token is the same with and without a newline at the end
of the buffer, unless the buffer ends with that token. -/
theorem strtok_comma_newline (m : List Char) :
    (∃ a b, strtok m [','] = (some a, b) ∧ strtok (m ++ ['\n']) [','] = (some a, b ++ ['\n'])) ∨
    ((strtok m [',']).2 = [] ∧ (strtok (m ++ ['\n']) [',']).2 = []) := by
  obtain ⟨k, m0, e, hk, hm0⟩ := split_run ',' m
  subst e
  rw [List.append_assoc, strtok_skip ',' k _ hk, strtok_skip ',' k _ hk]
  by_cases hc : ',' ∈ m0
  · obtain ⟨a, b, e2, ha⟩ := split_at_first ',' m0 hc
    subst e2
    have hane : a ≠ [] := by
      rintro rfl
      simp at hm0
    left
    refine ⟨a, b, strtok_token ',' _ hane ha, ?_⟩
    rw [List.append_assoc, List.cons_append, strtok_token ',' _ hane ha]
  · right
    have hnc : ',' ∉ m0 ++ ['\n'] := by
      simp only [List.mem_append, List.mem_singleton, not_or]
      exact ⟨hc, by decide⟩
    rw [strtok_last ',' (by simp) hnc]
    by_cases hm : m0 = []
    · subst hm
      exact ⟨rfl, rfl⟩
    · rw [strtok_last ',' hm hc]
      exact ⟨rfl, rfl⟩

theorem entry_stage4_newline (a b c s : List Char) (h : '\n' ∉ s) :
    entry_stage4 a b c (s ++ ['\n']) = entry_stage4 a b c s := by
  unfold entry_stage4
  rw [strtok_newline_last s h]
  by_cases hs : s = []
  · subst hs
    rfl
  · rw [if_neg hs, strtok_last '\n' hs h]

theorem not_mem_of_strtok_rest {s delim tok r : List Char} {x : Char} (hx : x ∉ s)
    (h : strtok s delim = (some tok, r)) : x ∉ r :=
  fun hr => hx ((strtok_subset s delim tok r h).2 hr)

theorem entry_stage3_newline (a b s : List Char) (h : '\n' ∉ s) :
    entry_stage3 a b (s ++ ['\n']) = entry_stage3 a b s := by
  rcases strtok_comma_newline s with ⟨t, r, e1, e2⟩ | ⟨e1, e2⟩
  · unfold entry_stage3
    rw [e1, e2]
    exact entry_stage4_newline a b t r (not_mem_of_strtok_rest h e1)
  · rw [entry_stage3_rest_nil a b s e1, entry_stage3_rest_nil a b _ e2]

theorem entry_stage2_newline (a s : List Char) (h : '\n' ∉ s) :
    entry_stage2 a (s ++ ['\n']) = entry_stage2 a s := by
  rcases strtok_comma_newline s with ⟨t, r, e1, e2⟩ | ⟨e1, e2⟩
  · unfold entry_stage2
    rw [e1, e2]
    exact entry_stage3_newline a t r (not_mem_of_strtok_rest h e1)
  · rw [entry_stage2_rest_nil a s e1, entry_stage2_rest_nil a _ e2]

/-- The newline that ends a buffer does not change the entry read from it. -/
theorem tokenize_entry_newline (s : List Char) (h : '\n' ∉ s) :
    tokenize_entry (s ++ ['\n']) = tokenize_entry s := by
  rcases strtok_comma_newline s with ⟨t, r, e1, e2⟩ | ⟨e1, e2⟩
  · rw [tokenize_entry_stages, tokenize_entry_stages s, e1, e2]
    exact entry_stage2_newline t r (not_mem_of_strtok_rest h e1)
  · rw [tokenize_entry_rest_nil s e1, tokenize_entry_rest_nil _ e2]

theorem c_str_append_newline (l : List Char) :
    c_str (l ++ ['\n']) = c_str l ∨ c_str (l ++ ['\n']) = c_str l ++ ['\n'] := by
  by_cases h : '\x00' ∈ l
  · left
    induction l with
    | nil => simp at h
    | cons a l ih =>
      by_cases ha : a = '\x00'
      · subst ha
        rfl
      · have hl : '\x00' ∈ l := by
          rcases List.mem_cons.1 h with h | h
          · exact absurd h.symm ha
          · exact h
        have := ih hl
        unfold c_str at this ⊢
        simp only [List.cons_append, List.takeWhile_cons, bne_iff_ne, ne_eq, ha,
          not_false_eq_true, decide_True, if_true, this]
  · right
    rw [c_str_append_of_not_mem h, c_str_eq_self h]
    rfl

/-- The entry read from the buffer that holds a line, with or without the
newline of the line, is the entry read from the line itself. -/
theorem tokenize_entry_c_str_tail (l tail : List Char) (hl : '\n' ∉ l)
    (htail : tail = [] ∨ tail = ['\n']) :
    tokenize_entry (c_str (l ++ tail)) = tokenize_entry (c_str l) := by
  rcases htail with rfl | rfl
  · rw [List.append_nil]
  · rcases c_str_append_newline l with h | h
    · rw [h]
    · rw [h]
      apply tokenize_entry_newline
      exact fun hx => hl ((List.takeWhile_sublist _).subset hx)

theorem data_entries_of_lines (lines : List (List Char)) (last : List Char)
    (h : ∀ l ∈ lines ++ [last], '\n' ∉ l ∧ l.length ≤ 1023) :
    data_entries (unlines lines ++ last) =
      (lines ++ [last]).filterMap (fun l => tokenize_entry (c_str l)) := by
  induction lines with
  | nil =>
    obtain ⟨hnl, hfit⟩ := h last (by simp)
    simp only [unlines, List.nil_append]
    by_cases hl : last = []
    · subst hl
      rfl
    · rw [data_entries_last last hl hnl hfit]
      cases h1 : tokenize_entry (c_str last) with
      | none => simp [List.filterMap_cons, h1]
      | some r => simp [List.filterMap_cons, h1]
  | cons l lines ih =>
    obtain ⟨hnl, hfit⟩ := h l (by simp)
    have ih2 := ih (fun x hx => h x (by
      rw [List.cons_append]
      exact List.mem_cons_of_mem _ hx))
    obtain ⟨tl, htl, e⟩ := data_entries_line_tail l (unlines lines ++ last) hnl hfit
    simp only [unlines, List.cons_append, List.append_assoc]
    rw [e, tokenize_entry_c_str_tail l tl hnl htl, ih2]
    cases h1 : tokenize_entry (c_str l) with
    | none => simp [List.filterMap_cons, h1]
    | some r => simp [List.filterMap_cons, h1]

theorem filterMap_length_le_of_nil {α : Type} (f : List Char → Option α) (hf : f [] = none)
    (lines : List (List Char)) (last : List Char) :
    ((lines ++ [last]).filterMap f).length ≤ lines.length + (if last = [] then 0 else 1) := by
  rw [List.filterMap_append, List.length_append]
  have h1 := List.length_filterMap_le f lines
  have h2 : ([last].filterMap f).length ≤ (if last = [] then 0 else 1) := by
    by_cases hl : last = []
    · subst hl
      simp [hf]
    · rw [if_neg hl]
      exact List.length_filterMap_le f [last]
  omega

/-- Counterexample to C14 as stated: the text has the header and one data line
of 1033 characters; `fgets` hands the line over in two buffers, the second
starting at its character 1023, and the load yields two entries. -/
theorem load_long_line_two_records :
    '\n' ∉ "1,INFO,a,".toList ++ List.replicate 1014 'x' ++ "2,WARN,b,y".toList ∧
    load_logs_from_csv (some (csv_header ++ '\n' ::
      ("1,INFO,a,".toList ++ List.replicate 1014 'x' ++ "2,WARN,b,y".toList ++ ['\n']))) [] =
      some (true, [⟨1, INFO, "a".toList, List.replicate 1014 'x'⟩,
        ⟨2, WARN, "b".toList, "y".toList⟩]) := by
  have hx : ∀ d : Char, d ≠ 'x' → d ∉ List.replicate 1014 'x' := by
    intro d hd hm
    exact hd (List.eq_of_mem_replicate hm)
  have hline : "1,INFO,a,".toList ++ List.replicate 1014 'x' =
      join_fields "1".toList "INFO".toList "a".toList (List.replicate 1014 'x') := rfl
  have hnl : '\n' ∉ join_fields "1".toList "INFO".toList "a".toList (List.replicate 1014 'x') := by
    rw [← hline, List.mem_append, not_or]
    exact ⟨by decide, hx _ (by decide)⟩
  have hnul : '\x00' ∉ join_fields "1".toList "INFO".toList "a".toList
      (List.replicate 1014 'x') := by
    rw [← hline, List.mem_append, not_or]
    exact ⟨by decide, hx _ (by decide)⟩
  have hlen : (join_fields "1".toList "INFO".toList "a".toList
      (List.replicate 1014 'x')).length = 1023 := by
    rw [← hline, List.length_append, List.length_replicate]
    rfl
  have hc : List.replicate 1014 'x' ≠ [] := by
    intro h
    have := congrArg List.length h
    rw [List.length_replicate] at this
    exact absurd this (by decide)
  have hq : strip_quotes (List.replicate 1014 'x') = List.replicate 1014 'x' := by
    apply strip_quotes_eq_self
    rintro ⟨_, h, _⟩
    have hr : List.replicate 1014 'x' = 'x' :: List.replicate 1013 'x' := rfl
    rw [hr, List.head?_cons] at h
    exact absurd (Option.some.inj h) (by decide)
  have htok := tokenize_entry_line [] (t := "1".toList) (s := "INFO".toList) (o := "a".toList)
    (c := List.replicate 1014 'x') (by decide) (by decide) (by decide) hc (by decide)
    (by decide) (by decide) hnl hnul (Or.inl rfl)
  rw [List.append_nil, hq] at htok
  have hread := fgets_read_exact _ ("2,WARN,b,y".toList ++ ['\n']) hnl
  rw [hlen] at hread
  constructor
  · rw [List.mem_append, not_or, hline]
    exact ⟨hnl, by decide⟩
  · rw [load_after_header, hline, List.append_assoc]
    obtain ⟨a, f, haf⟩ : ∃ a f, join_fields "1".toList "INFO".toList "a".toList
        (List.replicate 1014 'x') ++ ("2,WARN,b,y".toList ++ ['\n']) = a :: f :=
      ⟨_, _, rfl⟩
    rw [haf, data_entries_cons, ← haf, hread]
    simp only
    rw [htok]
    have h2 : data_entries ("2,WARN,b,y".toList ++ ['\n']) =
        [⟨2, WARN, "b".toList, "y".toList⟩] := by decide
    rw [h2]
    rfl

/-- C14, amended. For a text made of the exact header line and data lines of at
most 1023 characters each, the last of them possibly without newline,
`load_logs_from_csv` returns success and yields, in file order, for every
data line the entry read from the start of that line or nothing; so the
number of entries is at most the number of data lines. -/
theorem load_one_record_per_line (S : List log_entry_t) (lines : List (List Char))
    (last : List Char) (h : ∀ l ∈ lines ++ [last], '\n' ∉ l ∧ l.length ≤ 1023) :
    load_logs_from_csv (some (csv_header ++ '\n' :: (unlines lines ++ last))) S =
      some (true, (lines ++ [last]).filterMap (fun l => tokenize_entry (c_str l))) ∧
    ((lines ++ [last]).filterMap (fun l => tokenize_entry (c_str l))).length ≤
      lines.length + (if last = [] then 0 else 1) := by
  constructor
  · rw [load_after_header, data_entries_of_lines lines last h]
  · exact filterMap_length_le_of_nil _ rfl lines last

/-- Witness of C14, amended: three data lines, the second without entry. -/
theorem load_one_record_per_line_witness :
    load_logs_from_csv (some (csv_header ++ '\n' ::
      (unlines ["1,INFO,a,x".toList, "".toList, "2,WARN,b,y,z".toList] ++ [])))
      [⟨9, CRIT, "old".toList, "entry".toList⟩] =
      some (true, [⟨1, INFO, "a".toList, "x".toList⟩, ⟨2, WARN, "b".toList, "y,z".toList⟩]) ∧
    ([⟨1, INFO, "a".toList, "x".toList⟩, ⟨2, WARN, "b".toList, "y,z".toList⟩] :
      List log_entry_t).length ≤ 3 :=
  ⟨(load_one_record_per_line [⟨9, CRIT, "old".toList, "entry".toList⟩]
      ["1,INFO,a,x".toList, "".toList, "2,WARN,b,y,z".toList] [] (by decide)).1.trans
      (by decide),
    by decide⟩


end Bspy
